import Mathlib

/-!
Verification of the dCGP expression core (`include/dcgp/expression.hpp`).

The C++ class `dcgp::expression<T>` is shallowly embedded: the chromosome,
bounds, gene-index table, active-set engine, evaluator and the mutation
operators are translated into executable Lean functions over `Nat` lists.
Machine `unsigned` arithmetic never overflows in the covered code paths for
sane shapes, so genes are modelled as `Nat`.

Random draws (`std::uniform_int_distribution` applied to the seeded engine)
are modelled as oracle parameters; the distribution contract (a draw over the
closed range `[a, b]` lies in `[a, b]`) and the net effect of the rejection
loops (`do ... while (new_value == m_x[idx])` yields a value different from
the current one) appear as hypotheses on those oracles.
-/

namespace Dcgp

/-- The constructor parameters of `dcgp::expression`
(`m_n, m_m, m_r, m_c, m_l, m_arity` and the kernel-library size `m_f.size()`). -/
structure Shape where
  n : Nat
  m : Nat
  r : Nat
  c : Nat
  l : Nat
  arity : List Nat
  nf : Nat
deriving DecidableEq

/-- `expression::sanity_checks`: all of `n, m, c, r, l` positive, the arity
vector has one entry per column, all arities positive, at least one kernel. -/
def sane (sh : Shape) : Prop :=
  0 < sh.n ∧ 0 < sh.m ∧ 0 < sh.c ∧ 0 < sh.r ∧ 0 < sh.l ∧
    sh.arity.length = sh.c ∧ (∀ a ∈ sh.arity, 0 < a) ∧ 0 < sh.nf

instance (sh : Shape) : Decidable (sane sh) := by
  unfold sane; infer_instance

/-- Arity of column `j` (`m_arity[j]`). -/
def arityAt (sh : Shape) (j : Nat) : Nat := sh.arity.getD j 0

/-- Column of a function node (`(node_id - m_n) / m_r`). -/
def nodeCol (sh : Shape) (id : Nat) : Nat := (id - sh.n) / sh.r

/-- `expression::_get_arity`: the arity of the column a node belongs to. -/
def nodeArity (sh : Shape) (id : Nat) : Nat := arityAt sh (nodeCol sh id)

/-- Chromosome size (`init_bounds_and_chromosome`):
`r*c + r*accumulate(arity) + m`. -/
def chromoSize (sh : Shape) : Nat :=
  sh.r * sh.c + sh.r * sh.arity.sum + sh.m

/-- The accumulation loop of `init_bounds_and_chromosome` computing
`sum of m_arity[j] for j < col`. -/
def sumArity (sh : Shape) (col : Nat) : Nat :=
  ((List.range col).map (arityAt sh)).sum

/-- `m_gene_idx[node_id]`: position in the chromosome of the function gene of
a node (`acc * r + row * arity[col] + (node_id - n)`, and an unused `0` for
input nodes). -/
def geneIdx (sh : Shape) (id : Nat) : Nat :=
  if id < sh.n then 0
  else sh.r * sumArity sh (nodeCol sh id) + ((id - sh.n) % sh.r) * arityAt sh (nodeCol sh id) + (id - sh.n)

/-- The `1 + arity[i]` upper bounds written for one node of column `i`:
a function gene bound `|F| - 1` followed by connection gene bounds
`n + i*r - 1`. -/
def nodeUb (sh : Shape) (i : Nat) : List Nat :=
  (sh.nf - 1) :: List.replicate (arityAt sh i) (sh.n + i * sh.r - 1)

/-- The lower bounds written for one node of column `i`: `0` for the function
gene, and for connection genes `n + r*(i - l)` when `i ≥ l`, else `0`. -/
def nodeLb (sh : Shape) (i : Nat) : List Nat :=
  0 :: List.replicate (arityAt sh i) (if sh.l ≤ i then sh.n + sh.r * (i - sh.l) else 0)

/-- The per-node bound blocks written by the column-major fill loop of
`init_bounds_and_chromosome`, for the first `j` columns (each column writes
`r` identical node blocks). -/
def colsOf (sh : Shape) (B : Nat → List Nat) : Nat → List Nat
  | 0 => []
  | j + 1 => colsOf sh B j ++ (List.replicate sh.r (B j)).flatten

/-- The full upper-bound vector `m_ub`: node blocks for all `c` columns
followed by the `m` output gene bounds `n + r*c - 1`. -/
def ubList (sh : Shape) : List Nat :=
  colsOf sh (nodeUb sh) sh.c ++ List.replicate sh.m (sh.n + sh.r * sh.c - 1)

/-- The full lower-bound vector `m_lb`: node blocks for all `c` columns
followed by the `m` output gene bounds, `n + r*(c - l)` when `l ≤ c` else `0`. -/
def lbList (sh : Shape) : List Nat :=
  colsOf sh (nodeLb sh) sh.c ++ List.replicate sh.m (if sh.l ≤ sh.c then sh.n + sh.r * (sh.c - sh.l) else 0)

/-- `m_ub[k]` as a total function. -/
def ubF (sh : Shape) (k : Nat) : Nat := (ubList sh).getD k 0

/-- `m_lb[k]` as a total function. -/
def lbF (sh : Shape) (k : Nat) : Nat := (lbList sh).getD k 0

/-- `expression::is_valid`: the chromosome has length `m_lb.size()` and every
gene lies within its bounds. -/
def is_valid (sh : Shape) (x : List Nat) : Bool :=
  (x.length == (lbList sh).length) &&
    (List.range x.length).all (fun i => (lbF sh i ≤ x.getD i 0) && (x.getD i 0 ≤ ubF sh i))

/-- `std::sort` followed by `std::unique`-erase: on any list this produces the
sorted list of its distinct elements. -/
def sortUnique (l : List Nat) : List Nat :=
  (l.insertionSort (· ≤ ·)).dedup

/-- The connection-gene targets of a function node pushed into `next` by
`update_data_structures` (`m_x[m_gene_idx[node_id] + i]` for `1 ≤ i ≤ arity`). -/
def waveRefs (sh : Shape) (x : List Nat) (id : Nat) : List Nat :=
  (List.range (nodeArity sh id)).map (fun i => x.getD (geneIdx sh id + 1 + i) 0)

/-- One wave of the back-traversal: the sorted deduplicated list of all nodes
referenced by the function nodes of `current`. -/
def waveNext (sh : Shape) (x : List Nat) (current : List Nat) : List Nat :=
  sortUnique (current.flatMap (fun id => if sh.n ≤ id then waveRefs sh x id else []))

/-- The `do ... while (current.size() > 0)` loop of `update_data_structures`,
with explicit fuel (the loop terminates within `c + 1` waves for bound-valid
chromosomes, proved below).  Each wave appends `current` to the accumulated
active nodes, re-appends its input nodes (as the C++ loop does), and moves to
the referenced nodes. -/
def activeLoop (sh : Shape) (x : List Nat) : Nat → List Nat → List Nat → List Nat
  | 0, _, acc => acc
  | fuel + 1, current, acc =>
    let acc2 := acc ++ current ++ current.filter (fun id => decide (id < sh.n))
    let next := waveNext sh x current
    if next.isEmpty then acc2 else activeLoop sh x fuel next acc2

/-- The nodes selected by the `m` output genes (`m_x[m_x.size() - m + i]`),
the initial `current` of the back-traversal. -/
def initCurrent (sh : Shape) (x : List Nat) : List Nat :=
  (List.range sh.m).map (fun i => x.getD (x.length - sh.m + i) 0)

/-- `m_active_nodes` as recomputed by `update_data_structures`: the back-wave
accumulation, sorted and deduplicated. -/
def computeActiveNodes (sh : Shape) (x : List Nat) : List Nat :=
  sortUnique (activeLoop sh x (sh.c + 1) (initCurrent sh x) [])

/-- `m_active_genes` as recomputed by `update_data_structures`: for each
active function node the contiguous gene range `[gene_idx, gene_idx + arity]`,
followed by the `m` output gene positions. -/
def computeActiveGenes (sh : Shape) (x : List Nat) : List Nat :=
  ((computeActiveNodes sh x).flatMap (fun id =>
      if sh.n ≤ id then (List.range (nodeArity sh id + 1)).map (fun j => geneIdx sh id + j) else []))
    ++ (List.range sh.m).map (fun i => x.length - sh.m + i)

/-- The observable state of a `dcgp::expression`: shape, chromosome and the
cached derived structures `m_active_nodes` / `m_active_genes`. -/
structure CGP where
  sh : Shape
  x : List Nat
  activeNodes : List Nat
  activeGenes : List Nat
deriving DecidableEq

/-- A state whose caches have just been refreshed from the chromosome. -/
def mkState (sh : Shape) (x : List Nat) : CGP :=
  ⟨sh, x, computeActiveNodes sh x, computeActiveGenes sh x⟩

/-- `expression::update_data_structures` applied to a state. -/
def update_data_structures (st : CGP) : CGP := mkState st.sh st.x

/-- `expression::get`: the current chromosome. -/
def get (st : CGP) : List Nat := st.x

/-- `expression::set`: validity check then install and refresh.  On failure
(`throw std::invalid_argument`) the state is untouched. -/
def set (st : CGP) (y : List Nat) : Except Unit CGP :=
  if is_valid st.sh y then .ok (mkState st.sh y) else .error ()

/-- `expression::set_f_gene`: range checks on the kernel id and node id, then
a single write of the function gene, with no refresh of the derived sets. -/
def set_f_gene (st : CGP) (node_id f_id : Nat) : Except Unit CGP :=
  if st.sh.nf - 1 < f_id then .error ()
  else if node_id < st.sh.n ∨ st.sh.n + st.sh.c * st.sh.r - 1 < node_id then .error ()
  else .ok { st with x := st.x.set (geneIdx st.sh node_id) f_id }

/-- `expression::mutate(unsigned idx)`.  `v` is the value produced by the
rejection-sampling loop (drawn in `[lb[idx], ub[idx]]` until it differs from
`m_x[idx]`); the Boolean result records whether the call threw.  The gene is
only written when `lb[idx] < ub[idx]`, and the derived structures are then
refreshed. -/
def mutate (st : CGP) (idx v : Nat) : CGP × Bool :=
  if st.x.length ≤ idx then (st, true)
  else if lbF st.sh idx < ubF st.sh idx then (mkState st.sh (st.x.set idx v), false)
  else (st, false)

/-- Loop body of `expression::mutate(std::vector<unsigned> idxs)`: walks the
index list, throwing on the first out-of-range index (leaving the chromosome
as mutated so far) and otherwise writing the drawn values, tracking in `flag`
whether any gene changed.  `dv i k` is the value the rejection loop draws at
iteration `i` for gene `k`. -/
def mutateListAux (sh : Shape) (dv : Nat → Nat → Nat) :
    List Nat → Nat → List Nat → Bool → List Nat × Bool × Bool
  | [], _, x, flag => (x, flag, false)
  | k :: rest, i, x, flag =>
    if x.length ≤ k then (x, flag, true)
    else if lbF sh k < ubF sh k then mutateListAux sh dv rest (i + 1) (x.set k (dv i k)) true
    else mutateListAux sh dv rest (i + 1) x flag

/-- `expression::mutate(std::vector<unsigned> idxs)`: on a throw the partially
mutated chromosome is kept with stale derived sets; otherwise the derived sets
are refreshed iff some gene changed. -/
def mutate_list (st : CGP) (dv : Nat → Nat → Nat) (idxs : List Nat) : CGP × Bool :=
  let res := mutateListAux st.sh dv idxs 0 st.x false
  if res.2.2 then ({ st with x := res.1 }, true)
  else if res.2.1 then (mkState st.sh res.1, false)
  else ({ st with x := res.1 }, false)

/-- Loop body of `expression::mutate_random(unsigned N)`: `N` iterations, each
drawing a gene index (oracle `di`) and, when the gene is not degenerate, a new
value (oracle `dv`), with a single refresh at the end iff anything changed.
`i` counts iterations. -/
def mutateRandomAux (sh : Shape) (di : Nat → Nat) (dv : Nat → Nat → Nat) :
    Nat → Nat → List Nat → Bool → List Nat × Bool
  | 0, _, x, flag => (x, flag)
  | nIt + 1, i, x, flag =>
    let idx := di i
    if lbF sh idx < ubF sh idx then mutateRandomAux sh di dv nIt (i + 1) (x.set idx (dv i idx)) true
    else mutateRandomAux sh di dv nIt (i + 1) x flag

/-- `expression::mutate_random(unsigned N)`. -/
def mutate_random (st : CGP) (di : Nat → Nat) (dv : Nat → Nat → Nat) (N : Nat) : CGP :=
  let res := mutateRandomAux st.sh di dv N 0 st.x false
  if res.2 then mkState st.sh res.1 else { st with x := res.1 }

/-- Loop of `expression::mutate_active(unsigned N)`: `N` times draw a position
into `m_active_genes` (oracle `dj`), look the gene index up in the *current*
active-gene cache, and run the single-gene `mutate` (which refreshes).  A
throw inside `mutate` aborts the loop, as the C++ exception would. -/
def mutateActiveAux (dj : Nat → Nat) (dv : Nat → Nat → Nat) :
    Nat → Nat → CGP → CGP × Bool
  | 0, _, st => (st, false)
  | nIt + 1, i, st =>
    let idx := st.activeGenes.getD (dj i) 0
    let res := mutate st idx (dv i idx)
    if res.2 then (res.1, true) else mutateActiveAux dj dv nIt (i + 1) res.1

/-- `expression::mutate_active(unsigned N)`. -/
def mutate_active (st : CGP) (dj : Nat → Nat) (dv : Nat → Nat → Nat) (N : Nat) : CGP × Bool :=
  mutateActiveAux dj dv N 0 st

/-- Loop of `expression::mutate_active_fgene`: each iteration rejection-samples
an active non-input node (net effect: oracle `pick`) and mutates its function
gene `m_gene_idx[node_id]`. -/
def mutateActiveFgeneAux (pick : Nat → Nat) (dv : Nat → Nat → Nat) :
    Nat → Nat → CGP → CGP × Bool
  | 0, _, st => (st, false)
  | nIt + 1, i, st =>
    let idx := geneIdx st.sh (pick i)
    let res := mutate st idx (dv i idx)
    if res.2 then (res.1, true) else mutateActiveFgeneAux pick dv nIt (i + 1) res.1

/-- `expression::mutate_active_fgene(unsigned N)`: a no-op unless some active
function gene exists (`m_active_genes.size() > m_m`). -/
def mutate_active_fgene (st : CGP) (pick : Nat → Nat) (dv : Nat → Nat → Nat) (N : Nat) : CGP × Bool :=
  if st.sh.m < st.activeGenes.length then mutateActiveFgeneAux pick dv N 0 st else (st, false)

/-- Loop of `expression::mutate_active_cgene`: each iteration rejection-samples
an active non-input node (oracle `pick`), draws a connection-gene offset in
`[1, arity]` (oracle `off`) and mutates `m_gene_idx[id] + offset`. -/
def mutateActiveCgeneAux (pick off : Nat → Nat) (dv : Nat → Nat → Nat) :
    Nat → Nat → CGP → CGP × Bool
  | 0, _, st => (st, false)
  | nIt + 1, i, st =>
    let idx := geneIdx st.sh (pick i) + off i
    let res := mutate st idx (dv i idx)
    if res.2 then (res.1, true) else mutateActiveCgeneAux pick off dv nIt (i + 1) res.1

/-- `expression::mutate_active_cgene(unsigned N)`. -/
def mutate_active_cgene (st : CGP) (pick off : Nat → Nat) (dv : Nat → Nat → Nat) (N : Nat) : CGP × Bool :=
  if st.sh.m < st.activeGenes.length then mutateActiveCgeneAux pick off dv N 0 st else (st, false)

/-- The `for (i < N) idx = draw(...)` loop of `expression::mutate_ogene`: only
the last assignment survives.  `idx0` stands for the (uninitialised in C++)
initial value, relevant only for `N = 0`. -/
def forLast (d : Nat → Nat) (idx0 : Nat) : Nat → Nat
  | 0 => idx0
  | nIt + 1 => d nIt

/-- `expression::mutate_ogene(unsigned N)`: when `m > 1` the position into
`m_active_genes` is drawn `N` times over the last `m` slots (oracle `d`) and
only the final draw is used; when `m = 1` the last slot is taken directly.
The selected active gene is then mutated with drawn value `v`. -/
def mutate_ogene (st : CGP) (d : Nat → Nat) (v : Nat) (N : Nat) : CGP × Bool :=
  let idx := if 1 < st.sh.m then forLast d 0 N else st.activeGenes.length - 1
  mutate st (st.activeGenes.getD idx 0) v

/-- The random chromosome fill of the constructors
(`m_x[i] = uniform_int_distribution(m_lb[i], m_ub[i])(m_e)`); `dx` is the
draw oracle. -/
def initX (sh : Shape) (dx : Nat → Nat) : List Nat :=
  (List.range (lbList sh).length).map dx

/-- The constructor: sanity checks, bound initialisation, random fill, refresh. -/
def construct (sh : Shape) (dx : Nat → Nat) : Except Unit CGP :=
  if sane sh then .ok (mkState sh (initX sh dx)) else .error ()

/-- `expression::operator()`: write the inputs and the active function-node
values into the scratch `node` array in ascending active-node order. -/
def evalNodes {T : Type} [Inhabited T] (sh : Shape) (K : Nat → List T → T)
    (x : List Nat) (point : List T) (anodes : List Nat) : List T :=
  anodes.foldl (fun node id =>
    if id < sh.n then node.set id (point.getD id default)
    else node.set id (K (x.getD (geneIdx sh id) 0)
      ((List.range (nodeArity sh id)).map
        (fun j => node.getD (x.getD (geneIdx sh id + 1 + j) 0) default))))
    (List.replicate (sh.n + sh.r * sh.c) default)

/-- `expression::operator()(const std::vector<T>&)`: input-size check, scratch
evaluation along the active nodes, then the `m` output reads; `K` is the
kernel library (`m_f`) viewed through its call operator. -/
def eval {T : Type} [Inhabited T] (K : Nat → List T → T) (st : CGP)
    (point : List T) : Option (List T) :=
  if point.length = st.sh.n then
    let node := evalNodes st.sh K st.x point st.activeNodes
    some ((List.range st.sh.m).map
      (fun i => node.getD (st.x.getD (st.x.length - st.sh.m + i) 0) default))
  else none

/-- The class invariant of `dcgp::expression`: sane shape, bound-valid
chromosome, and caches consistent with the chromosome. -/
def StateInv (st : CGP) : Prop :=
  sane st.sh ∧ is_valid st.sh st.x = true ∧
    st.activeNodes = computeActiveNodes st.sh st.x ∧
    st.activeGenes = computeActiveGenes st.sh st.x

instance (st : CGP) : Decidable (StateInv st) := by
  unfold StateInv; infer_instance

/-- Specification-level reachability: the node ids reachable from the `m`
output-gene selections by reverse traversal of connection genes. -/
inductive Reaches (sh : Shape) (x : List Nat) : Nat → Prop
  | out (i : Nat) : i < sh.m → Reaches sh x (x.getD (x.length - sh.m + i) 0)
  | step (id j : Nat) : Reaches sh x id → sh.n ≤ id → j < nodeArity sh id →
      Reaches sh x (x.getD (geneIdx sh id + 1 + j) 0)

/-- The draw-oracle contract for gene values: every drawn value respects the
bounds of the gene it is drawn for (`uniform_int_distribution(lb[k], ub[k])`). -/
def DrawsInBounds (sh : Shape) (dv : Nat → Nat → Nat) : Prop :=
  ∀ i k, lbF sh k ≤ dv i k ∧ dv i k ≤ ubF sh k

/-- The states reachable through the public interface: a constructed
expression followed by any sequence of `set` and mutation calls that return
normally (draw oracles respecting the distribution contracts). -/
inductive Reach : CGP → Prop
  | init (sh : Shape) (dx : Nat → Nat) : sane sh →
      (∀ i, lbF sh i ≤ dx i ∧ dx i ≤ ubF sh i) →
      ∀ st, construct sh dx = .ok st → Reach st
  | set_ok (st : CGP) (y : List Nat) : Reach st →
      ∀ st2, set st y = .ok st2 → Reach st2
  | mut1 (st : CGP) (idx v : Nat) : Reach st →
      lbF st.sh idx ≤ v → v ≤ ubF st.sh idx →
      Reach (mutate st idx v).1
  | mut_list (st : CGP) (dv : Nat → Nat → Nat) (idxs : List Nat) : Reach st →
      DrawsInBounds st.sh dv → (mutate_list st dv idxs).2 = false →
      Reach (mutate_list st dv idxs).1
  | mut_random (st : CGP) (di : Nat → Nat) (dv : Nat → Nat → Nat) (N : Nat) : Reach st →
      DrawsInBounds st.sh dv → Reach (mutate_random st di dv N)
  | mut_active (st : CGP) (dj : Nat → Nat) (dv : Nat → Nat → Nat) (N : Nat) : Reach st →
      DrawsInBounds st.sh dv → Reach (mutate_active st dj dv N).1
  | mut_fgene (st : CGP) (pick : Nat → Nat) (dv : Nat → Nat → Nat) (N : Nat) : Reach st →
      DrawsInBounds st.sh dv → Reach (mutate_active_fgene st pick dv N).1
  | mut_cgene (st : CGP) (pick off : Nat → Nat) (dv : Nat → Nat → Nat) (N : Nat) : Reach st →
      DrawsInBounds st.sh dv → Reach (mutate_active_cgene st pick off dv N).1
  | mut_ogene (st : CGP) (d : Nat → Nat) (v : Nat) (N : Nat) : Reach st →
      lbF st.sh (st.activeGenes.getD (if 1 < st.sh.m then forLast d 0 N else st.activeGenes.length - 1) 0) ≤ v →
      v ≤ ubF st.sh (st.activeGenes.getD (if 1 < st.sh.m then forLast d 0 N else st.activeGenes.length - 1) 0) →
      Reach (mutate_ogene st d v N).1

/-! ### List helpers -/

theorem getD_append_left {l1 l2 : List Nat} {p : Nat} (h : p < l1.length) :
    (l1 ++ l2).getD p 0 = l1.getD p 0 := by
  simp [List.getElem?_append_left h]

theorem getD_append_right {l1 l2 : List Nat} (p : Nat) :
    (l1 ++ l2).getD (l1.length + p) 0 = l2.getD p 0 := by
  simp [List.getElem?_append_right (Nat.le_add_right l1.length p)]

theorem getD_replicate {r p a : Nat} (h : p < r) :
    (List.replicate r a).getD p 0 = a := by
  simp [List.getElem?_replicate, h]

theorem getD_set_ne (x : List Nat) {k j : Nat} (v : Nat) (h : k ≠ j) :
    (x.set k v).getD j 0 = x.getD j 0 := by
  simp [List.getElem?_set_ne h]

theorem getD_set_self (x : List Nat) {k : Nat} (v : Nat) (h : k < x.length) :
    (x.set k v).getD k 0 = v := by
  simp [List.getElem?_set_eq_of_lt v h]

theorem range_map_getD (l : List Nat) :
    (List.range l.length).map (fun i => l.getD i 0) = l := by
  apply List.ext_getElem (by simp)
  intro i h1 h2
  simp [List.getD_eq_getElem?_getD, List.getElem?_eq_getElem h2]

theorem foldl_congr_mem {α β : Type} {f g : β → α → β} {l : List α} {b : β}
    (h : ∀ a ∈ l, ∀ acc, f acc a = g acc a) : l.foldl f b = l.foldl g b := by
  induction l generalizing b with
  | nil => rfl
  | cons a t ih =>
    simp only [List.foldl_cons]
    rw [h a (by simp)]
    exact ih (fun a2 ha2 => h a2 (by simp [ha2]))

theorem mem_sortUnique {l : List Nat} {a : Nat} : a ∈ sortUnique l ↔ a ∈ l := by
  unfold sortUnique
  rw [List.mem_dedup, (List.perm_insertionSort (· ≤ ·) l).mem_iff]

theorem sorted_sortUnique (l : List Nat) : (sortUnique l).Sorted (· ≤ ·) :=
  List.Pairwise.sublist (List.dedup_sublist _) (List.sorted_insertionSort (· ≤ ·) l)

theorem nodup_sortUnique (l : List Nat) : (sortUnique l).Nodup :=
  List.nodup_dedup _

theorem sortUnique_nil : sortUnique [] = [] := rfl

theorem sortUnique_eq_nil_iff {l : List Nat} : sortUnique l = [] ↔ l = [] := by
  constructor
  · intro h
    cases hl : l with
    | nil => rfl
    | cons a t =>
      exfalso
      have : a ∈ sortUnique l := mem_sortUnique.mpr (by simp [hl])
      rw [h] at this
      exact absurd this (List.not_mem_nil a)
  · intro h; rw [h]; rfl

/-! ### Layout of the bound vectors -/

theorem length_nodeUb (sh : Shape) (i : Nat) :
    (nodeUb sh i).length = 1 + arityAt sh i := by
  simp [nodeUb, Nat.add_comm]

theorem length_nodeLb (sh : Shape) (i : Nat) :
    (nodeLb sh i).length = 1 + arityAt sh i := by
  simp [nodeLb, Nat.add_comm]

theorem sumArity_succ (sh : Shape) (j : Nat) :
    sumArity sh (j + 1) = sumArity sh j + arityAt sh j := by
  simp [sumArity, List.range_succ]

theorem length_flatten_replicate (r : Nat) (bl : List Nat) :
    ((List.replicate r bl).flatten).length = r * bl.length := by
  induction r with
  | zero => simp
  | succ r ih => simp [List.replicate_succ, List.flatten_cons, ih, Nat.succ_mul, Nat.add_comm]

theorem colsOf_length {sh : Shape} {B : Nat → List Nat}
    (hB : ∀ k, (B k).length = 1 + arityAt sh k) (j : Nat) :
    (colsOf sh B j).length = sh.r * j + sh.r * sumArity sh j := by
  induction j with
  | zero => simp [colsOf, sumArity]
  | succ j ih =>
    simp only [colsOf, List.length_append, ih, length_flatten_replicate, hB, sumArity_succ]
    ring

theorem colsOf_length_le {sh : Shape} (B : Nat → List Nat) {i j : Nat} (h : i ≤ j) :
    (colsOf sh B i).length ≤ (colsOf sh B j).length := by
  induction j with
  | zero => simp [Nat.le_zero.mp h]
  | succ j ih =>
    rcases Nat.lt_or_ge i (j + 1) with hlt | hge
    · exact le_trans (ih (Nat.lt_succ_iff.mp hlt)) (by simp [colsOf])
    · have : i = j + 1 := le_antisymm h hge
      simp [this]

theorem flatten_replicate_getD {bl : List Nat} {r row k : Nat}
    (hrow : row < r) (hk : k < bl.length) :
    ((List.replicate r bl).flatten).getD (row * bl.length + k) 0 = bl.getD k 0 := by
  induction r generalizing row with
  | zero => exact absurd hrow (Nat.not_lt_zero row)
  | succ r ih =>
    rw [List.replicate_succ, List.flatten_cons]
    cases row with
    | zero => simpa using getD_append_left (by simpa using hk)
    | succ row =>
      have h1 : (row + 1) * bl.length + k = bl.length + (row * bl.length + k) := by ring
      rw [h1, getD_append_right]
      exact ih (Nat.lt_of_succ_lt_succ hrow)

theorem colsOf_getD {sh : Shape} {B : Nat → List Nat}
    (hB : ∀ k2, (B k2).length = 1 + arityAt sh k2) {col row k j : Nat}
    (hcol : col < j) (hrow : row < sh.r) (hk : k < 1 + arityAt sh col) :
    (colsOf sh B j).getD ((colsOf sh B col).length + row * (1 + arityAt sh col) + k) 0
      = (B col).getD k 0 := by
  induction j with
  | zero => exact absurd hcol (Nat.not_lt_zero col)
  | succ j ih =>
    rcases Nat.lt_or_ge col j with hlt | hge
    · have hpos : (colsOf sh B col).length + row * (1 + arityAt sh col) + k
          < (colsOf sh B j).length := by
        have h1 : row * (1 + arityAt sh col) + k < sh.r * (1 + arityAt sh col) := by
          calc row * (1 + arityAt sh col) + k
              < row * (1 + arityAt sh col) + (1 + arityAt sh col) := by omega
            _ = (row + 1) * (1 + arityAt sh col) := by ring
            _ ≤ sh.r * (1 + arityAt sh col) := Nat.mul_le_mul_right _ hrow
        have h2 : (colsOf sh B col).length + sh.r * (1 + arityAt sh col)
            = (colsOf sh B (col + 1)).length := by
          simp [colsOf, length_flatten_replicate, hB]
        have h3 : (colsOf sh B (col + 1)).length ≤ (colsOf sh B j).length :=
          colsOf_length_le B hlt
        omega
      rw [colsOf, getD_append_left (by exact hpos)]
      exact ih hlt
    · have hcj : col = j := by omega
      subst hcj
      rw [show colsOf sh B (col + 1) = colsOf sh B col ++ (List.replicate sh.r (B col)).flatten
            from rfl,
        Nat.add_assoc, getD_append_right, ← hB col]
      exact flatten_replicate_getD hrow (by rw [hB]; exact hk)

theorem sumArity_total {sh : Shape} (hlen : sh.arity.length = sh.c) :
    sumArity sh sh.c = sh.arity.sum := by
  unfold sumArity arityAt
  rw [← hlen, range_map_getD]

theorem length_ubList {sh : Shape} (hs : sane sh) :
    (ubList sh).length = chromoSize sh := by
  simp [ubList, chromoSize, colsOf_length (length_nodeUb sh), sumArity_total hs.2.2.2.2.2.1]

theorem length_lbList {sh : Shape} (hs : sane sh) :
    (lbList sh).length = chromoSize sh := by
  simp [lbList, chromoSize, colsOf_length (length_nodeLb sh), sumArity_total hs.2.2.2.2.2.1]

/-! ### The gene-index table against the layout -/

/-- Shorthand for the row of a function node. -/
def nodeRow (sh : Shape) (id : Nat) : Nat := (id - sh.n) % sh.r

theorem nodeRow_lt {sh : Shape} (hr : 0 < sh.r) (id : Nat) : nodeRow sh id < sh.r :=
  Nat.mod_lt _ hr

theorem nodeCol_lt {sh : Shape} (hr : 0 < sh.r) {id : Nat} (hn : sh.n ≤ id)
    (hlt : id < sh.n + sh.r * sh.c) : nodeCol sh id < sh.c := by
  unfold nodeCol
  rw [Nat.div_lt_iff_lt_mul hr]
  have : sh.r * sh.c = sh.c * sh.r := Nat.mul_comm _ _
  omega

/-- The source formula for `m_gene_idx` equals the offset of the node's block
in the column-major bound layout. -/
theorem geneIdx_decomp {sh : Shape} {B : Nat → List Nat}
    (hB : ∀ k, (B k).length = 1 + arityAt sh k) {id : Nat} (hn : sh.n ≤ id) :
    geneIdx sh id = (colsOf sh B (nodeCol sh id)).length
      + nodeRow sh id * (1 + arityAt sh (nodeCol sh id)) := by
  have hq := Nat.div_add_mod (id - sh.n) sh.r
  unfold geneIdx nodeRow
  rw [if_neg (by omega)]
  rw [colsOf_length hB]
  unfold nodeCol at *
  nlinarith [hq]

theorem geneIdx_add_lt {sh : Shape} {B : Nat → List Nat}
    (hB : ∀ k2, (B k2).length = 1 + arityAt sh k2) {id k : Nat}
    (hr : 0 < sh.r) (hn : sh.n ≤ id) (hlt : id < sh.n + sh.r * sh.c)
    (hk : k ≤ arityAt sh (nodeCol sh id)) :
    geneIdx sh id + k < (colsOf sh B sh.c).length := by
  rw [geneIdx_decomp hB hn]
  have hrow := nodeRow_lt hr id
  have hcol := nodeCol_lt hr hn hlt
  have h1 : nodeRow sh id * (1 + arityAt sh (nodeCol sh id)) + k
      < sh.r * (1 + arityAt sh (nodeCol sh id)) := by
    calc nodeRow sh id * (1 + arityAt sh (nodeCol sh id)) + k
        < (nodeRow sh id + 1) * (1 + arityAt sh (nodeCol sh id)) := by
          rw [Nat.succ_mul]; omega
      _ ≤ sh.r * (1 + arityAt sh (nodeCol sh id)) := Nat.mul_le_mul_right _ hrow
  have h2 : (colsOf sh B (nodeCol sh id)).length + sh.r * (1 + arityAt sh (nodeCol sh id))
      = (colsOf sh B (nodeCol sh id + 1)).length := by
    simp [colsOf, length_flatten_replicate, hB]
  have h3 : (colsOf sh B (nodeCol sh id + 1)).length ≤ (colsOf sh B sh.c).length :=
    colsOf_length_le B hcol
  omega

/-- Value of `m_ub` on a block position of an in-range function node. -/
theorem ubF_block {sh : Shape} {id k : Nat}
    (hr : 0 < sh.r) (hn : sh.n ≤ id) (hlt : id < sh.n + sh.r * sh.c)
    (hk : k ≤ arityAt sh (nodeCol sh id)) :
    ubF sh (geneIdx sh id + k) = (nodeUb sh (nodeCol sh id)).getD k 0 := by
  unfold ubF ubList
  rw [getD_append_left (geneIdx_add_lt (length_nodeUb sh) hr hn hlt hk),
    geneIdx_decomp (length_nodeUb sh) hn]
  refine colsOf_getD (length_nodeUb sh) (nodeCol_lt hr hn hlt) (nodeRow_lt hr id) ?_
  omega

/-- Value of `m_lb` on a block position of an in-range function node. -/
theorem lbF_block {sh : Shape} {id k : Nat}
    (hr : 0 < sh.r) (hn : sh.n ≤ id) (hlt : id < sh.n + sh.r * sh.c)
    (hk : k ≤ arityAt sh (nodeCol sh id)) :
    lbF sh (geneIdx sh id + k) = (nodeLb sh (nodeCol sh id)).getD k 0 := by
  unfold lbF lbList
  rw [getD_append_left (geneIdx_add_lt (length_nodeLb sh) hr hn hlt hk),
    geneIdx_decomp (length_nodeLb sh) hn]
  refine colsOf_getD (length_nodeLb sh) (nodeCol_lt hr hn hlt) (nodeRow_lt hr id) ?_
  omega

/-- Value of `m_ub` on a connection-gene position. -/
theorem ubF_connection {sh : Shape} {id j : Nat}
    (hr : 0 < sh.r) (hn : sh.n ≤ id) (hlt : id < sh.n + sh.r * sh.c)
    (hj : j < nodeArity sh id) :
    ubF sh (geneIdx sh id + 1 + j) = sh.n + nodeCol sh id * sh.r - 1 := by
  have h := @ubF_block sh id (1 + j) hr hn hlt (by unfold nodeArity at hj; omega)
  rw [Nat.add_assoc]
  rw [h]
  unfold nodeUb
  rw [show (1 + j) = j + 1 from Nat.add_comm 1 j, List.getD_cons_succ]
  exact getD_replicate (by unfold nodeArity at hj; exact hj)

/-- Value of `m_ub` on an output-gene position. -/
theorem ubF_output {sh : Shape} {i : Nat} (hi : i < sh.m) :
    ubF sh ((colsOf sh (nodeUb sh) sh.c).length + i) = sh.n + sh.r * sh.c - 1 := by
  unfold ubF ubList
  rw [getD_append_right]
  exact getD_replicate hi

/-! ### Validity -/

theorem is_valid_iff {sh : Shape} {x : List Nat} :
    is_valid sh x = true ↔ x.length = (lbList sh).length ∧
      ∀ i < x.length, lbF sh i ≤ x.getD i 0 ∧ x.getD i 0 ≤ ubF sh i := by
  unfold is_valid
  rw [Bool.and_eq_true, beq_iff_eq, List.all_eq_true]
  constructor
  · rintro ⟨h1, h2⟩
    refine ⟨h1, fun i hi => ?_⟩
    have := h2 i (List.mem_range.mpr hi)
    rw [Bool.and_eq_true, decide_eq_true_eq, decide_eq_true_eq] at this
    exact this
  · rintro ⟨h1, h2⟩
    refine ⟨h1, fun i hi => ?_⟩
    rw [Bool.and_eq_true, decide_eq_true_eq, decide_eq_true_eq]
    exact h2 i (List.mem_range.mp hi)

theorem valid_length {sh : Shape} {x : List Nat} (hs : sane sh)
    (hv : is_valid sh x = true) : x.length = chromoSize sh := by
  rw [(is_valid_iff.mp hv).1, length_lbList hs]

theorem valid_getD_le_ub {sh : Shape} {x : List Nat}
    (hv : is_valid sh x = true) (i : Nat) : x.getD i 0 ≤ ubF sh i := by
  rcases Nat.lt_or_ge i x.length with h | h
  · exact ((is_valid_iff.mp hv).2 i h).2
  · rw [List.getD_eq_getElem?_getD, List.getElem?_eq_none (by omega)]
    exact Nat.zero_le _

theorem valid_set {sh : Shape} {x : List Nat} {k v : Nat}
    (hv : is_valid sh x = true) (hlb : lbF sh k ≤ v) (hub : v ≤ ubF sh k) :
    is_valid sh (x.set k v) = true := by
  rw [is_valid_iff] at hv ⊢
  refine ⟨by rw [List.length_set]; exact hv.1, fun i hi => ?_⟩
  rw [List.length_set] at hi
  rcases eq_or_ne k i with hk | hk
  · subst hk
    rw [getD_set_self x v hi]
    exact ⟨hlb, hub⟩
  · rw [getD_set_ne x v hk]
    exact hv.2 i hi

/-! ### Termination measure of the back-wave loop -/

/-- Measure of a single node for the wave loop: inputs weigh `1`, function
nodes weigh `column + 2`. -/
def nodeMeasure (sh : Shape) (id : Nat) : Nat :=
  if id < sh.n then 1 else nodeCol sh id + 2

/-- Measure of a wave: the maximum node measure (0 for the empty wave). -/
def waveMeasure (sh : Shape) (l : List Nat) : Nat :=
  l.foldr (fun a acc => max (nodeMeasure sh a) acc) 0

/-- Every wave element is within the node id space. -/
def InRange (sh : Shape) (l : List Nat) : Prop :=
  ∀ a ∈ l, a < sh.n + sh.r * sh.c

instance (sh : Shape) (l : List Nat) : Decidable (InRange sh l) := by
  unfold InRange
  infer_instance

theorem nodeMeasure_pos (sh : Shape) (id : Nat) : 1 ≤ nodeMeasure sh id := by
  unfold nodeMeasure; split <;> omega

theorem nodeMeasure_le_waveMeasure {sh : Shape} {l : List Nat} {a : Nat} (h : a ∈ l) :
    nodeMeasure sh a ≤ waveMeasure sh l := by
  induction l with
  | nil => exact absurd h (List.not_mem_nil a)
  | cons b t ih =>
    rcases List.mem_cons.mp h with hb | ht
    · subst hb; exact Nat.le_max_left _ _
    · exact le_trans (ih ht) (Nat.le_max_right _ _)

theorem waveMeasure_pos {sh : Shape} {l : List Nat} (h : l ≠ []) :
    1 ≤ waveMeasure sh l := by
  cases l with
  | nil => exact absurd rfl h
  | cons b t => exact le_trans (nodeMeasure_pos sh b) (nodeMeasure_le_waveMeasure (by simp))

theorem waveMeasure_lt {sh : Shape} {l : List Nat} {M : Nat} (hM : 0 < M)
    (h : ∀ a ∈ l, nodeMeasure sh a < M) : waveMeasure sh l < M := by
  induction l with
  | nil => exact hM
  | cons b t ih =>
    have h1 := h b (by simp)
    have h2 := ih (fun a ha => h a (by simp [ha]))
    unfold waveMeasure at *
    simp only [List.foldr_cons]
    omega

theorem waveMeasure_le {sh : Shape} {l : List Nat} {M : Nat}
    (h : ∀ a ∈ l, nodeMeasure sh a ≤ M) : waveMeasure sh l ≤ M := by
  induction l with
  | nil => exact Nat.zero_le M
  | cons b t ih =>
    have h1 := h b (by simp)
    have h2 := ih (fun a ha => h a (by simp [ha]))
    unfold waveMeasure at *
    simp only [List.foldr_cons]
    omega

/-- Membership in a wave step. -/
theorem mem_waveNext {sh : Shape} {x current : List Nat} {b : Nat} :
    b ∈ waveNext sh x current ↔
      ∃ id ∈ current, sh.n ≤ id ∧ ∃ j < nodeArity sh id,
        b = x.getD (geneIdx sh id + 1 + j) 0 := by
  unfold waveNext
  rw [mem_sortUnique, List.mem_flatMap]
  constructor
  · rintro ⟨id, hid, hb⟩
    by_cases hn : sh.n ≤ id
    · rw [if_pos hn] at hb
      unfold waveRefs at hb
      rcases List.mem_map.mp hb with ⟨j, hj, hbj⟩
      exact ⟨id, hid, hn, j, List.mem_range.mp hj, hbj.symm⟩
    · rw [if_neg hn] at hb
      exact absurd hb (List.not_mem_nil b)
  · rintro ⟨id, hid, hn, j, hj, hbj⟩
    refine ⟨id, hid, ?_⟩
    rw [if_pos hn]
    unfold waveRefs
    exact List.mem_map.mpr ⟨j, List.mem_range.mpr hj, hbj.symm⟩

/-- Under valid bounds, a reference of an in-range function node is at most
`n + col*r - 1`. -/
theorem ref_le {sh : Shape} {x : List Nat} (hs : sane sh)
    (hv : is_valid sh x = true) {id j : Nat} (hn : sh.n ≤ id)
    (hlt : id < sh.n + sh.r * sh.c) (hj : j < nodeArity sh id) :
    x.getD (geneIdx sh id + 1 + j) 0 ≤ sh.n + nodeCol sh id * sh.r - 1 := by
  have h := valid_getD_le_ub hv (geneIdx sh id + 1 + j)
  rwa [ubF_connection hs.2.2.2.1 hn hlt hj] at h

/-- Waves stay in range: a referenced node id is below `n + r*c`. -/
theorem ref_inRange {sh : Shape} {x : List Nat} (hs : sane sh)
    (hv : is_valid sh x = true) {id j : Nat} (hn : sh.n ≤ id)
    (hlt : id < sh.n + sh.r * sh.c) (hj : j < nodeArity sh id) :
    x.getD (geneIdx sh id + 1 + j) 0 < sh.n + sh.r * sh.c := by
  have h := ref_le hs hv hn hlt hj
  have hcol := nodeCol_lt hs.2.2.2.1 hn hlt
  have hn0 := hs.1
  have : nodeCol sh id * sh.r ≤ sh.r * sh.c := by
    calc nodeCol sh id * sh.r ≤ (sh.c - 1) * sh.r := Nat.mul_le_mul_right _ (by omega)
      _ ≤ sh.c * sh.r := Nat.mul_le_mul_right _ (by omega)
      _ = sh.r * sh.c := Nat.mul_comm _ _
  omega

/-- A referenced node has strictly smaller measure than the referencing one. -/
theorem ref_measure_lt {sh : Shape} {x : List Nat} (hs : sane sh)
    (hv : is_valid sh x = true) {id j : Nat} (hn : sh.n ≤ id)
    (hlt : id < sh.n + sh.r * sh.c) (hj : j < nodeArity sh id) :
    nodeMeasure sh (x.getD (geneIdx sh id + 1 + j) 0) < nodeMeasure sh id := by
  have h := ref_le hs hv hn hlt hj
  have hr := hs.2.2.2.1
  have hn0 := hs.1
  have hmid : nodeMeasure sh id = nodeCol sh id + 2 := by
    unfold nodeMeasure; rw [if_neg (by omega)]
  rw [hmid]
  set b := x.getD (geneIdx sh id + 1 + j) 0 with hb
  by_cases hbn : b < sh.n
  · unfold nodeMeasure; rw [if_pos hbn]; omega
  · have hcolpos : 1 ≤ nodeCol sh id * sh.r := by
      rcases Nat.eq_zero_or_pos (nodeCol sh id * sh.r) with h0 | h1
      · rw [h0] at h; omega
      · exact h1
    have hblt : b - sh.n < nodeCol sh id * sh.r := by omega
    have hcb : nodeCol sh b < nodeCol sh id := by
      show (b - sh.n) / sh.r < nodeCol sh id
      rw [Nat.div_lt_iff_lt_mul hr]
      have h3 : nodeCol sh id * sh.r = sh.r * nodeCol sh id := Nat.mul_comm _ _
      omega
    unfold nodeMeasure
    rw [if_neg hbn]
    omega

/-- The initial wave (nodes selected by the output genes) is in range. -/
theorem initCurrent_inRange {sh : Shape} {x : List Nat} (hs : sane sh)
    (hv : is_valid sh x = true) : InRange sh (initCurrent sh x) := by
  intro a ha
  unfold initCurrent at ha
  rcases List.mem_map.mp ha with ⟨i, hi, hai⟩
  rw [List.mem_range] at hi
  have hlen := valid_length hs hv
  have hcols : (colsOf sh (nodeUb sh) sh.c).length = sh.r * sh.c + sh.r * sh.arity.sum := by
    rw [colsOf_length (length_nodeUb sh), sumArity_total hs.2.2.2.2.2.1]
  have hpos : x.length - sh.m + i = (colsOf sh (nodeUb sh) sh.c).length + i := by
    unfold chromoSize at hlen
    omega
  have h := valid_getD_le_ub hv (x.length - sh.m + i)
  rw [hpos, ubF_output hi] at h
  rw [hpos] at hai
  have : 0 < sh.n := hs.1
  omega

theorem initCurrent_measure {sh : Shape} {x : List Nat} (hs : sane sh)
    (hv : is_valid sh x = true) : waveMeasure sh (initCurrent sh x) ≤ sh.c + 1 := by
  apply waveMeasure_le
  intro a ha
  have hrange := initCurrent_inRange hs hv a ha
  unfold nodeMeasure
  split
  · omega
  · have hcol := nodeCol_lt hs.2.2.2.1 (by omega) hrange
    omega

/-- Each wave is in range if the previous one was. -/
theorem waveNext_inRange {sh : Shape} {x current : List Nat} (hs : sane sh)
    (hv : is_valid sh x = true) (hcur : InRange sh current) :
    InRange sh (waveNext sh x current) := by
  intro b hb
  rcases mem_waveNext.mp hb with ⟨id, hid, hn, j, hj, hbj⟩
  rw [hbj]
  exact ref_inRange hs hv hn (hcur id hid) hj

/-- Core of the termination argument: one wave strictly decreases the
measure. -/
theorem waveNext_measure_lt {sh : Shape} {x current : List Nat} (hs : sane sh)
    (hv : is_valid sh x = true) (hcur : InRange sh current) (hne : current ≠ []) :
    waveMeasure sh (waveNext sh x current) < waveMeasure sh current := by
  apply waveMeasure_lt (waveMeasure_pos hne)
  intro b hb
  rcases mem_waveNext.mp hb with ⟨id, hid, hn, j, hj, hbj⟩
  calc nodeMeasure sh b = nodeMeasure sh (x.getD (geneIdx sh id + 1 + j) 0) := by rw [hbj]
    _ < nodeMeasure sh id := ref_measure_lt hs hv hn (hcur id hid) hj
    _ ≤ waveMeasure sh current := nodeMeasure_le_waveMeasure hid

/-- With fuel at least the wave measure, extra fuel does not change the
result of the back-wave loop. -/
theorem activeLoop_fuel_stable {sh : Shape} {x : List Nat} (hs : sane sh)
    (hv : is_valid sh x = true) :
    ∀ fuel1 fuel2 current acc, waveMeasure sh current ≤ fuel1 → fuel1 ≤ fuel2 →
      InRange sh current →
      activeLoop sh x fuel1 current acc = activeLoop sh x fuel2 current acc := by
  intro fuel1
  induction fuel1 with
  | zero =>
    intro fuel2 current acc hm _ _
    have hcur : current = [] := by
      by_contra hne
      have hwm : 1 ≤ waveMeasure sh current := waveMeasure_pos hne
      omega
    subst hcur
    cases fuel2 with
    | zero => rfl
    | succ f =>
      show activeLoop sh x 0 [] acc = activeLoop sh x (f + 1) [] acc
      simp [activeLoop, waveNext, sortUnique_nil]
  | succ f1 ih =>
    intro fuel2 current acc hm hle hcur
    cases fuel2 with
    | zero => omega
    | succ f2 =>
      show activeLoop sh x (f1 + 1) current acc = activeLoop sh x (f2 + 1) current acc
      simp only [activeLoop]
      by_cases hemp : (waveNext sh x current).isEmpty
      · rw [if_pos hemp, if_pos hemp]
      · rw [if_neg hemp, if_neg hemp]
        have hne : current ≠ [] := by
          intro h
          subst h
          simp [waveNext, sortUnique_nil, List.isEmpty_nil] at hemp
        have hdec := waveNext_measure_lt hs hv hcur hne
        exact ih f2 _ _ (by omega) (by omega) (waveNext_inRange hs hv hcur)

/-! ### The back-wave accumulation: membership and closure -/

theorem acc_subset_activeLoop {sh : Shape} {x : List Nat} {a : Nat} :
    ∀ fuel current acc, a ∈ acc → a ∈ activeLoop sh x fuel current acc := by
  intro fuel
  induction fuel with
  | zero => intro current acc h; exact h
  | succ f ih =>
    intro current acc h
    show a ∈ if (waveNext sh x current).isEmpty then _ else _
    split
    · simp [h]
    · exact ih _ _ (by simp [h])

theorem cur_subset_activeLoop {sh : Shape} {x : List Nat} {a : Nat}
    (fuel : Nat) (current acc : List Nat) (h : a ∈ current) :
    a ∈ activeLoop sh x (fuel + 1) current acc := by
  show a ∈ if (waveNext sh x current).isEmpty then _ else _
  split
  · simp [h]
  · exact acc_subset_activeLoop _ _ _ (by simp [h])

/-- Everything the back-wave accumulates is reachable in the specification
sense. -/
theorem activeLoop_reaches {sh : Shape} {x : List Nat} :
    ∀ fuel current acc, (∀ a ∈ current, Reaches sh x a) → (∀ a ∈ acc, Reaches sh x a) →
      ∀ a ∈ activeLoop sh x fuel current acc, Reaches sh x a := by
  intro fuel
  induction fuel with
  | zero => intro current acc _ hacc a ha; exact hacc a ha
  | succ f ih =>
    intro current acc hcur hacc a ha
    have hacc2 : ∀ b, b ∈ acc ++ current ++ current.filter (fun id => decide (id < sh.n)) →
        Reaches sh x b := by
      intro b hb
      rcases List.mem_append.mp hb with hb1 | hb2
      · rcases List.mem_append.mp hb1 with hb3 | hb4
        · exact hacc b hb3
        · exact hcur b hb4
      · exact hcur b (List.mem_filter.mp hb2).1
    have hnext : ∀ b ∈ waveNext sh x current, Reaches sh x b := by
      intro b hb
      rcases mem_waveNext.mp hb with ⟨id, hid, hn, j, hj, hbj⟩
      rw [hbj]
      exact Reaches.step id j (hcur id hid) hn hj
    revert ha
    show a ∈ (if (waveNext sh x current).isEmpty then _ else _) → _
    split
    · intro ha; exact hacc2 a ha
    · intro ha; exact ih _ _ hnext hacc2 a ha

/-- Closure property of a node list: it contains the references of all its
function nodes. -/
def ClosedList (sh : Shape) (x : List Nat) (L : List Nat) : Prop :=
  ∀ id ∈ L, sh.n ≤ id → ∀ j < nodeArity sh id, x.getD (geneIdx sh id + 1 + j) 0 ∈ L

/-- When the fuel dominates the wave measure, the result of the back-wave
loop is closed under taking references, provided the accumulator only owes
references to itself or to the current wave. -/
theorem activeLoop_closed {sh : Shape} {x : List Nat} (hs : sane sh)
    (hv : is_valid sh x = true) :
    ∀ fuel current acc, waveMeasure sh current ≤ fuel → InRange sh current →
      (∀ id ∈ acc, sh.n ≤ id → ∀ j < nodeArity sh id,
        x.getD (geneIdx sh id + 1 + j) 0 ∈ acc ∨ x.getD (geneIdx sh id + 1 + j) 0 ∈ current) →
      ClosedList sh x (activeLoop sh x fuel current acc) := by
  intro fuel
  induction fuel with
  | zero =>
    intro current acc hm _ hinv
    have hcur : current = [] := by
      by_contra hne
      have hwm : 1 ≤ waveMeasure sh current := waveMeasure_pos hne
      omega
    subst hcur
    intro id hid hn j hj
    rcases hinv id hid hn j hj with h | h
    · exact h
    · exact absurd h (List.not_mem_nil _)
  | succ f ih =>
    intro current acc hm hcur hinv
    set acc2 := acc ++ current ++ current.filter (fun id => decide (id < sh.n)) with hacc2
    have hmem_acc2 : ∀ b, b ∈ acc ∨ b ∈ current → b ∈ acc2 := by
      intro b hb
      rcases hb with hb | hb
      · exact List.mem_append.mpr (Or.inl (List.mem_append.mpr (Or.inl hb)))
      · exact List.mem_append.mpr (Or.inl (List.mem_append.mpr (Or.inr hb)))
    have hinv2 : ∀ id ∈ acc2, sh.n ≤ id → ∀ j < nodeArity sh id,
        x.getD (geneIdx sh id + 1 + j) 0 ∈ acc2 ∨
          x.getD (geneIdx sh id + 1 + j) 0 ∈ waveNext sh x current := by
      intro id hid hn j hj
      rcases List.mem_append.mp hid with hid1 | hid2
      · rcases List.mem_append.mp hid1 with hid3 | hid4
        · rcases hinv id hid3 hn j hj with h | h
          · exact Or.inl (hmem_acc2 _ (Or.inl h))
          · exact Or.inl (hmem_acc2 _ (Or.inr h))
        · exact Or.inr (mem_waveNext.mpr ⟨id, hid4, hn, j, hj, rfl⟩)
      · have hfil := List.mem_filter.mp hid2
        have : id < sh.n := of_decide_eq_true hfil.2
        omega
    show ClosedList sh x (if (waveNext sh x current).isEmpty then acc2 else _)
    split
    · rename_i hemp
      rw [List.isEmpty_iff] at hemp
      intro id hid hn j hj
      rcases hinv2 id hid hn j hj with h | h
      · exact h
      · rw [hemp] at h
        exact absurd h (List.not_mem_nil _)
    · rename_i hemp
      rw [List.isEmpty_iff] at hemp
      have hne : current ≠ [] := by
        intro h
        subst h
        exact hemp (by simp [waveNext, sortUnique_nil])
      exact ih _ _ (by have := waveNext_measure_lt hs hv hcur hne; omega)
        (waveNext_inRange hs hv hcur) hinv2

/-- The active-node list computed by `update_data_structures` coincides with
the specification reachability predicate. -/
theorem mem_computeActiveNodes_iff {sh : Shape} {x : List Nat} (hs : sane sh)
    (hv : is_valid sh x = true) (a : Nat) :
    a ∈ computeActiveNodes sh x ↔ Reaches sh x a := by
  unfold computeActiveNodes
  rw [mem_sortUnique]
  constructor
  · intro h
    refine activeLoop_reaches _ _ _ ?_ (by intro b hb; exact absurd hb (List.not_mem_nil b)) a h
    intro b hb
    unfold initCurrent at hb
    rcases List.mem_map.mp hb with ⟨i, hi, hbi⟩
    rw [← hbi]
    exact Reaches.out i (List.mem_range.mp hi)
  · intro h
    have hclosed : ClosedList sh x (activeLoop sh x (sh.c + 1) (initCurrent sh x) []) :=
      activeLoop_closed hs hv _ _ _ (initCurrent_measure hs hv) (initCurrent_inRange hs hv)
        (by intro id hid; exact absurd hid (List.not_mem_nil id))
    induction h with
    | out i hi =>
      refine cur_subset_activeLoop _ _ _ ?_
      unfold initCurrent
      exact List.mem_map.mpr ⟨i, List.mem_range.mpr hi, rfl⟩
    | step id j hid hn hj ih =>
      exact hclosed id ih hn j hj

/-! ### State invariant: establishment and preservation -/

theorem stateInv_mkState {sh : Shape} {x : List Nat} (hs : sane sh)
    (hv : is_valid sh x = true) : StateInv (mkState sh x) :=
  ⟨hs, hv, rfl, rfl⟩

theorem eta_CGP (st : CGP) : { st with x := st.x } = st := rfl

theorem stateInv_of_unchanged {st : CGP} (h : StateInv st) {x2 : List Nat}
    (hx : x2 = st.x) : StateInv { st with x := x2 } := by
  rw [hx, eta_CGP]
  exact h

/-- The constructor's random fill respects the bounds, hence is valid. -/
theorem initX_valid {sh : Shape} {dx : Nat → Nat}
    (hdx : ∀ i, lbF sh i ≤ dx i ∧ dx i ≤ ubF sh i) :
    is_valid sh (initX sh dx) = true := by
  rw [is_valid_iff]
  have hlen : (initX sh dx).length = (lbList sh).length := by simp [initX]
  refine ⟨hlen, fun i hi => ?_⟩
  have hget : (initX sh dx).getD i 0 = dx i := by
    unfold initX
    rw [hlen] at hi
    rw [List.getD_eq_getElem?_getD,
      List.getElem?_map, List.getElem?_range hi]
    rfl
  rw [hget]
  exact hdx i

theorem construct_inv {sh : Shape} {dx : Nat → Nat} (hs : sane sh)
    (hdx : ∀ i, lbF sh i ≤ dx i ∧ dx i ≤ ubF sh i) {st : CGP}
    (h : construct sh dx = .ok st) : StateInv st := by
  unfold construct at h
  rw [if_pos hs] at h
  cases h
  exact stateInv_mkState hs (initX_valid hdx)

theorem set_inv {st : CGP} {y : List Nat} (h : StateInv st) {st2 : CGP}
    (hok : set st y = .ok st2) : StateInv st2 := by
  unfold set at hok
  by_cases hv : is_valid st.sh y
  · rw [if_pos hv] at hok
    cases hok
    exact stateInv_mkState h.1 hv
  · rw [if_neg hv] at hok
    cases hok

theorem mutate_inv {st : CGP} {idx v : Nat} (h : StateInv st)
    (hlb : lbF st.sh idx ≤ v) (hub : v ≤ ubF st.sh idx) :
    StateInv (mutate st idx v).1 := by
  unfold mutate
  split
  · exact h
  · split
    · exact stateInv_mkState h.1 (valid_set h.2.1 hlb hub)
    · exact h

/-- `mutate` never changes the shape field. -/
theorem mutate_sh (st : CGP) (idx v : Nat) : (mutate st idx v).1.sh = st.sh := by
  unfold mutate
  split
  · rfl
  · split <;> rfl

/-! `mutate(std::vector)` loop: validity of the partial chromosome, and the
`flag`/`x` bookkeeping. -/

theorem mutateListAux_valid {sh : Shape} {dv : Nat → Nat → Nat}
    (hdv : DrawsInBounds sh dv) :
    ∀ idxs i x flag, is_valid sh x = true →
      is_valid sh (mutateListAux sh dv idxs i x flag).1 = true := by
  intro idxs
  induction idxs with
  | nil => intro i x flag hv; exact hv
  | cons k rest ih =>
    intro i x flag hv
    simp only [mutateListAux]
    split
    · exact hv
    · split
      · exact ih _ _ _ (valid_set hv (hdv i k).1 (hdv i k).2)
      · exact ih _ _ _ hv

theorem mutateListAux_flag_mono {sh : Shape} {dv : Nat → Nat → Nat} :
    ∀ idxs i x, (mutateListAux sh dv idxs i x true).2.1 = true := by
  intro idxs
  induction idxs with
  | nil => intro i x; rfl
  | cons k rest ih =>
    intro i x
    simp only [mutateListAux]
    split
    · rfl
    · split <;> exact ih _ _

theorem mutateListAux_flag_false {sh : Shape} {dv : Nat → Nat → Nat} :
    ∀ idxs i x flag, (mutateListAux sh dv idxs i x flag).2.1 = false →
      (mutateListAux sh dv idxs i x flag).1 = x := by
  intro idxs
  induction idxs with
  | nil => intro i x flag _; rfl
  | cons k rest ih =>
    intro i x flag hf
    simp only [mutateListAux] at hf ⊢
    by_cases h1 : x.length ≤ k
    · rw [if_pos h1]
    · rw [if_neg h1] at hf ⊢
      by_cases h2 : lbF sh k < ubF sh k
      · rw [if_pos h2] at hf
        rw [mutateListAux_flag_mono] at hf
        cases hf
      · rw [if_neg h2] at hf ⊢
        exact ih _ _ _ hf

theorem mutate_list_inv {st : CGP} {dv : Nat → Nat → Nat} {idxs : List Nat}
    (h : StateInv st) (hdv : DrawsInBounds st.sh dv)
    (hok : (mutate_list st dv idxs).2 = false) :
    StateInv (mutate_list st dv idxs).1 := by
  unfold mutate_list at *
  set res := mutateListAux st.sh dv idxs 0 st.x false with hres
  by_cases hthrew : res.2.2
  · rw [if_pos hthrew] at hok
    exact absurd hok (by simp)
  · rw [if_neg (by simp [hthrew])] at hok ⊢
    by_cases hflag : res.2.1
    · rw [if_pos hflag]
      exact stateInv_mkState h.1 (mutateListAux_valid hdv idxs 0 st.x false h.2.1)
    · rw [if_neg (by simp [hflag])]
      exact stateInv_of_unchanged h
        (mutateListAux_flag_false idxs 0 st.x false (by simpa using hflag))

theorem mutateRandomAux_valid {sh : Shape} {di : Nat → Nat} {dv : Nat → Nat → Nat}
    (hdv : DrawsInBounds sh dv) :
    ∀ N i x flag, is_valid sh x = true →
      is_valid sh (mutateRandomAux sh di dv N i x flag).1 = true := by
  intro N
  induction N with
  | zero => intro i x flag hv; exact hv
  | succ nIt ih =>
    intro i x flag hv
    simp only [mutateRandomAux]
    split
    · exact ih _ _ _ (valid_set hv (hdv i (di i)).1 (hdv i (di i)).2)
    · exact ih _ _ _ hv

theorem mutateRandomAux_flag_mono {sh : Shape} {di : Nat → Nat} {dv : Nat → Nat → Nat} :
    ∀ N i x, (mutateRandomAux sh di dv N i x true).2 = true := by
  intro N
  induction N with
  | zero => intro i x; rfl
  | succ nIt ih =>
    intro i x
    simp only [mutateRandomAux]
    split <;> exact ih _ _

theorem mutateRandomAux_flag_false {sh : Shape} {di : Nat → Nat} {dv : Nat → Nat → Nat} :
    ∀ N i x flag, (mutateRandomAux sh di dv N i x flag).2 = false →
      (mutateRandomAux sh di dv N i x flag).1 = x := by
  intro N
  induction N with
  | zero => intro i x flag _; rfl
  | succ nIt ih =>
    intro i x flag hf
    simp only [mutateRandomAux] at hf ⊢
    by_cases h2 : lbF sh (di i) < ubF sh (di i)
    · rw [if_pos h2] at hf
      rw [mutateRandomAux_flag_mono] at hf
      cases hf
    · rw [if_neg h2] at hf ⊢
      exact ih _ _ _ hf

theorem mutate_random_inv {st : CGP} {di : Nat → Nat} {dv : Nat → Nat → Nat} {N : Nat}
    (h : StateInv st) (hdv : DrawsInBounds st.sh dv) :
    StateInv (mutate_random st di dv N) := by
  unfold mutate_random
  set res := mutateRandomAux st.sh di dv N 0 st.x false with hres
  by_cases hflag : res.2
  · rw [if_pos hflag]
    exact stateInv_mkState h.1 (mutateRandomAux_valid hdv N 0 st.x false h.2.1)
  · rw [if_neg hflag]
    exact stateInv_of_unchanged h (mutateRandomAux_flag_false N 0 st.x false (by simpa using hflag))

theorem mutateActiveAux_inv {dj : Nat → Nat} {dv : Nat → Nat → Nat} :
    ∀ N i st, StateInv st → DrawsInBounds st.sh dv →
      StateInv (mutateActiveAux dj dv N i st).1 := by
  intro N
  induction N with
  | zero => intro i st h _; exact h
  | succ nIt ih =>
    intro i st h hdv
    simp only [mutateActiveAux]
    have hinv := @mutate_inv st (st.activeGenes.getD (dj i) 0)
      (dv i (st.activeGenes.getD (dj i) 0)) h (hdv i _).1 (hdv i _).2
    have hsh := mutate_sh st (st.activeGenes.getD (dj i) 0)
      (dv i (st.activeGenes.getD (dj i) 0))
    split
    · exact hinv
    · exact ih _ _ hinv (by rw [hsh]; exact hdv)

theorem mutate_active_inv {st : CGP} {dj : Nat → Nat} {dv : Nat → Nat → Nat} {N : Nat}
    (h : StateInv st) (hdv : DrawsInBounds st.sh dv) :
    StateInv (mutate_active st dj dv N).1 :=
  mutateActiveAux_inv N 0 st h hdv

theorem mutateActiveFgeneAux_inv {pick : Nat → Nat} {dv : Nat → Nat → Nat} :
    ∀ N i st, StateInv st → DrawsInBounds st.sh dv →
      StateInv (mutateActiveFgeneAux pick dv N i st).1 := by
  intro N
  induction N with
  | zero => intro i st h _; exact h
  | succ nIt ih =>
    intro i st h hdv
    simp only [mutateActiveFgeneAux]
    have hinv := @mutate_inv st (geneIdx st.sh (pick i))
      (dv i (geneIdx st.sh (pick i))) h (hdv i _).1 (hdv i _).2
    have hsh := mutate_sh st (geneIdx st.sh (pick i)) (dv i (geneIdx st.sh (pick i)))
    split
    · exact hinv
    · exact ih _ _ hinv (by rw [hsh]; exact hdv)

theorem mutate_active_fgene_inv {st : CGP} {pick : Nat → Nat} {dv : Nat → Nat → Nat}
    {N : Nat} (h : StateInv st) (hdv : DrawsInBounds st.sh dv) :
    StateInv (mutate_active_fgene st pick dv N).1 := by
  unfold mutate_active_fgene
  split
  · exact mutateActiveFgeneAux_inv N 0 st h hdv
  · exact h

theorem mutateActiveCgeneAux_inv {pick off : Nat → Nat} {dv : Nat → Nat → Nat} :
    ∀ N i st, StateInv st → DrawsInBounds st.sh dv →
      StateInv (mutateActiveCgeneAux pick off dv N i st).1 := by
  intro N
  induction N with
  | zero => intro i st h _; exact h
  | succ nIt ih =>
    intro i st h hdv
    simp only [mutateActiveCgeneAux]
    have hinv := @mutate_inv st (geneIdx st.sh (pick i) + off i)
      (dv i (geneIdx st.sh (pick i) + off i)) h (hdv i _).1 (hdv i _).2
    have hsh := mutate_sh st (geneIdx st.sh (pick i) + off i)
      (dv i (geneIdx st.sh (pick i) + off i))
    split
    · exact hinv
    · exact ih _ _ hinv (by rw [hsh]; exact hdv)

theorem mutate_active_cgene_inv {st : CGP} {pick off : Nat → Nat} {dv : Nat → Nat → Nat}
    {N : Nat} (h : StateInv st) (hdv : DrawsInBounds st.sh dv) :
    StateInv (mutate_active_cgene st pick off dv N).1 := by
  unfold mutate_active_cgene
  split
  · exact mutateActiveCgeneAux_inv N 0 st h hdv
  · exact h

theorem mutate_ogene_inv {st : CGP} {d : Nat → Nat} {v N : Nat} (h : StateInv st)
    (hlb : lbF st.sh (st.activeGenes.getD
      (if 1 < st.sh.m then forLast d 0 N else st.activeGenes.length - 1) 0) ≤ v)
    (hub : v ≤ ubF st.sh (st.activeGenes.getD
      (if 1 < st.sh.m then forLast d 0 N else st.activeGenes.length - 1) 0)) :
    StateInv (mutate_ogene st d v N).1 :=
  mutate_inv h hlb hub

/-- Every reachable state satisfies the class invariant. -/
theorem reach_stateInv {st : CGP} (h : Reach st) : StateInv st := by
  induction h with
  | init sh dx hs hdx st2 hok => exact construct_inv hs hdx hok
  | set_ok st2 y _ st3 hok ih => exact set_inv ih hok
  | mut1 st2 idx v _ hlb hub ih => exact mutate_inv ih hlb hub
  | mut_list st2 dv idxs _ hdv hok ih => exact mutate_list_inv ih hdv hok
  | mut_random st2 di dv N _ hdv ih => exact mutate_random_inv ih hdv
  | mut_active st2 dj dv N _ hdv ih => exact mutate_active_inv ih hdv
  | mut_fgene st2 pick dv N _ hdv ih => exact mutate_active_fgene_inv ih hdv
  | mut_cgene st2 pick off dv N _ hdv ih => exact mutate_active_cgene_inv ih hdv
  | mut_ogene st2 d v N _ hlb hub ih => exact mutate_ogene_inv ih hlb hub

/-! ### Active genes: membership and the output tail -/

theorem mem_activeGenes_block {sh : Shape} {x : List Nat} {id k : Nat}
    (hid : id ∈ computeActiveNodes sh x) (hn : sh.n ≤ id)
    (hk : k ≤ nodeArity sh id) :
    geneIdx sh id + k ∈ computeActiveGenes sh x := by
  unfold computeActiveGenes
  refine List.mem_append.mpr (Or.inl (List.mem_flatMap.mpr ⟨id, hid, ?_⟩))
  rw [if_pos hn]
  exact List.mem_map.mpr ⟨k, List.mem_range.mpr (by omega), rfl⟩

theorem mem_activeGenes_out {sh : Shape} {x : List Nat} {i : Nat} (hi : i < sh.m) :
    x.length - sh.m + i ∈ computeActiveGenes sh x := by
  unfold computeActiveGenes
  exact List.mem_append.mpr (Or.inr (List.mem_map.mpr ⟨i, List.mem_range.mpr hi, rfl⟩))

theorem activeGenes_length {sh : Shape} (x : List Nat) :
    (computeActiveGenes sh x).length =
      ((computeActiveNodes sh x).flatMap (fun id =>
        if sh.n ≤ id then (List.range (nodeArity sh id + 1)).map (fun j => geneIdx sh id + j)
        else [])).length + sh.m := by
  unfold computeActiveGenes
  simp

/-- The final `m` entries of the active-gene list are exactly the output gene
positions. -/
theorem activeGenes_drop {sh : Shape} (x : List Nat) :
    (computeActiveGenes sh x).drop ((computeActiveGenes sh x).length - sh.m) =
      (List.range sh.m).map (fun i => x.length - sh.m + i) := by
  rw [activeGenes_length]
  unfold computeActiveGenes
  rw [Nat.add_sub_cancel]
  exact List.drop_left _ _

/-- Reading the active-gene list in its output tail yields an output gene
position. -/
theorem activeGenes_getD_out {sh : Shape} {x : List Nat} {p : Nat}
    (hp1 : (computeActiveGenes sh x).length - sh.m ≤ p)
    (hp2 : p < (computeActiveGenes sh x).length) :
    ∃ q < sh.m, (computeActiveGenes sh x).getD p 0 = x.length - sh.m + q := by
  have hlen := @activeGenes_length sh x
  set B := ((computeActiveNodes sh x).flatMap (fun id =>
    if sh.n ≤ id then (List.range (nodeArity sh id + 1)).map (fun j => geneIdx sh id + j)
    else [])) with hB
  have hq : p = B.length + (p - B.length) := by omega
  refine ⟨p - B.length, by omega, ?_⟩
  show (B ++ (List.range sh.m).map (fun i => x.length - sh.m + i)).getD p 0 = _
  rw [hq, getD_append_right, List.getD_eq_getElem?_getD, List.getElem?_map,
    List.getElem?_range (by omega)]
  simp

/-! ### Inactive genes do not influence the traversal or the evaluation -/

theorem flatMap_congr {α β : Type} {f g : α → List β} {l : List α}
    (h : ∀ a ∈ l, f a = g a) : l.flatMap f = l.flatMap g := by
  induction l with
  | nil => rfl
  | cons a t ih =>
    simp only [List.flatMap_cons]
    rw [h a (by simp), ih (fun a2 ha2 => h a2 (by simp [ha2]))]

theorem waveNext_agree {sh : Shape} {x y current : List Nat}
    (hag : ∀ k ∈ computeActiveGenes sh x, y.getD k 0 = x.getD k 0)
    (hsub : ∀ a ∈ current, a ∈ computeActiveNodes sh x) :
    waveNext sh y current = waveNext sh x current := by
  unfold waveNext
  congr 1
  apply flatMap_congr
  intro id hid
  by_cases hn : sh.n ≤ id
  · rw [if_pos hn, if_pos hn]
    unfold waveRefs
    apply List.map_congr_left
    intro j hj
    have hpos : geneIdx sh id + 1 + j = geneIdx sh id + (1 + j) := by omega
    rw [hpos]
    exact hag _ (mem_activeGenes_block (hsub id hid) hn
      (by have := List.mem_range.mp hj; unfold nodeArity at *; omega))
  · rw [if_neg hn, if_neg hn]

theorem activeLoop_agree {sh : Shape} {x y : List Nat}
    (hag : ∀ k ∈ computeActiveGenes sh x, y.getD k 0 = x.getD k 0) :
    ∀ fuel current acc,
      (∀ a ∈ activeLoop sh x fuel current acc, a ∈ computeActiveNodes sh x) →
      activeLoop sh y fuel current acc = activeLoop sh x fuel current acc := by
  intro fuel
  induction fuel with
  | zero => intro current acc _; rfl
  | succ f ih =>
    intro current acc hsub
    have hcur : ∀ a ∈ current, a ∈ computeActiveNodes sh x := by
      intro a ha
      exact hsub a (cur_subset_activeLoop f current acc ha)
    have hnext := waveNext_agree hag hcur
    simp only [activeLoop]
    rw [hnext]
    by_cases hemp : (waveNext sh x current).isEmpty
    · rw [if_pos hemp, if_pos hemp]
    · rw [if_neg hemp, if_neg hemp]
      apply ih
      intro a ha
      apply hsub
      simp only [activeLoop]
      rw [if_neg hemp]
      exact ha

theorem computeActiveNodes_agree {sh : Shape} {x y : List Nat}
    (hlen : y.length = x.length)
    (hag : ∀ k ∈ computeActiveGenes sh x, y.getD k 0 = x.getD k 0) :
    computeActiveNodes sh y = computeActiveNodes sh x := by
  have hinit : initCurrent sh y = initCurrent sh x := by
    unfold initCurrent
    apply List.map_congr_left
    intro i hi
    rw [hlen]
    exact hag _ (mem_activeGenes_out (List.mem_range.mp hi))
  unfold computeActiveNodes
  rw [hinit]
  congr 1
  apply activeLoop_agree hag
  intro a ha
  unfold computeActiveNodes
  rw [mem_sortUnique]
  exact ha

theorem computeActiveGenes_agree {sh : Shape} {x y : List Nat}
    (hlen : y.length = x.length)
    (hag : ∀ k ∈ computeActiveGenes sh x, y.getD k 0 = x.getD k 0) :
    computeActiveGenes sh y = computeActiveGenes sh x := by
  unfold computeActiveGenes
  rw [computeActiveNodes_agree hlen hag, hlen]

theorem evalNodes_agree {T : Type} [Inhabited T] {sh : Shape}
    {K : Nat → List T → T} {x y : List Nat} {point : List T}
    (hag : ∀ k ∈ computeActiveGenes sh x, y.getD k 0 = x.getD k 0) :
    evalNodes sh K y point (computeActiveNodes sh x)
      = evalNodes sh K x point (computeActiveNodes sh x) := by
  unfold evalNodes
  apply foldl_congr_mem
  intro id hid acc
  by_cases hn : id < sh.n
  · rw [if_pos hn, if_pos hn]
  · rw [if_neg hn, if_neg hn]
    have h1 : y.getD (geneIdx sh id) 0 = x.getD (geneIdx sh id) 0 := by
      have := hag _ (mem_activeGenes_block hid (by omega) (Nat.zero_le _))
      simpa using this
    have h2 : ∀ j, j < nodeArity sh id →
        y.getD (geneIdx sh id + 1 + j) 0 = x.getD (geneIdx sh id + 1 + j) 0 := by
      intro j hj
      have hpos : geneIdx sh id + 1 + j = geneIdx sh id + (1 + j) := by omega
      rw [hpos]
      exact hag _ (mem_activeGenes_block hid (by omega) (by omega))
    rw [h1, List.map_congr_left (fun j hj => by rw [h2 j (List.mem_range.mp hj)])]

/-- Evaluation only depends on the active genes: two chromosomes of the same
shape agreeing on every active gene evaluate identically on every point. -/
theorem eval_agree {sh : Shape} {x y : List Nat}
    (hlen : y.length = x.length)
    (hag : ∀ k ∈ computeActiveGenes sh x, y.getD k 0 = x.getD k 0)
    {T : Type} [Inhabited T] (K : Nat → List T → T) (point : List T) :
    eval K (mkState sh y) point = eval K (mkState sh x) point := by
  have hAN := computeActiveNodes_agree hlen hag
  simp only [eval, mkState]
  by_cases hp : point.length = sh.n
  · simp only [if_pos hp]
    congr 1
    apply List.map_congr_left
    intro i hi
    have hi2 := List.mem_range.mp hi
    rw [hAN, evalNodes_agree hag, hlen, hag _ (mem_activeGenes_out hi2)]
  · simp only [if_neg hp]

/-! ### Small facts about the single-gene mutation -/

theorem mutate_threw_iff {st : CGP} {idx v : Nat} :
    (mutate st idx v).2 = true ↔ st.x.length ≤ idx := by
  unfold mutate
  by_cases h : st.x.length ≤ idx
  · rw [if_pos h]
    simp [h]
  · rw [if_neg h]
    split <;> simp [h]

theorem mutate_not_threw {st : CGP} {idx v : Nat} (h : idx < st.x.length) :
    (mutate st idx v).2 = false := by
  unfold mutate
  rw [if_neg (by omega)]
  split <;> rfl

theorem mutate_throw_state {st : CGP} {idx v : Nat} (h : st.x.length ≤ idx) :
    (mutate st idx v).1 = st := by
  unfold mutate
  rw [if_pos h]

theorem mutate_write {st : CGP} {idx v : Nat} (h1 : idx < st.x.length)
    (h2 : lbF st.sh idx < ubF st.sh idx) :
    mutate st idx v = (mkState st.sh (st.x.set idx v), false) := by
  unfold mutate
  rw [if_neg (by omega), if_pos h2]

theorem mutate_noop {st : CGP} {idx v : Nat} (h1 : idx < st.x.length)
    (h2 : lbF st.sh idx = ubF st.sh idx) :
    mutate st idx v = (st, false) := by
  unfold mutate
  rw [if_neg (by omega), if_neg (by omega)]

theorem mutate_getD_ne {st : CGP} {idx v j : Nat} (hj : j ≠ idx) :
    (mutate st idx v).1.x.getD j 0 = st.x.getD j 0 := by
  unfold mutate
  split
  · rfl
  · split
    · exact getD_set_ne st.x v (Ne.symm hj)
    · rfl

/-- The `mutate(std::vector)` loop throws whenever some listed index is out of
range. -/
theorem mutateListAux_throws {sh : Shape} {dv : Nat → Nat → Nat} :
    ∀ idxs i x flag, (∃ k ∈ idxs, x.length ≤ k) →
      (mutateListAux sh dv idxs i x flag).2.2 = true := by
  intro idxs
  induction idxs with
  | nil =>
    rintro i x flag ⟨k, hk, _⟩
    exact absurd hk (List.not_mem_nil k)
  | cons k rest ih =>
    rintro i x flag ⟨k2, hk2, hk2len⟩
    simp only [mutateListAux]
    by_cases h1 : x.length ≤ k
    · rw [if_pos h1]
    · rw [if_neg h1]
      have hk2r : k2 ∈ rest := by
        rcases List.mem_cons.mp hk2 with h | h
        · omega
        · exact h
      split
      · exact ih _ _ _ ⟨k2, hk2r, by rw [List.length_set]; exact hk2len⟩
      · exact ih _ _ _ ⟨k2, hk2r, hk2len⟩

/-! ### Concrete shapes and states used by the end-to-end scenarios -/

/-- The shape of the spec's "active set minimal" scenario:
`n=2, m=1, r=1, c=1, L=1, arity=[2]` and a single kernel. -/
def sh1 : Shape := ⟨2, 1, 1, 1, 1, [2], 1⟩

/-- The same scenario with `L=2`, which makes the output gene's lower bound
`0` instead of `2`. -/
def sh2 : Shape := ⟨2, 1, 1, 1, 2, [2], 1⟩

/-- The `L=1` scenario shape with two kernels, so the function gene is
mutable. -/
def sh3 : Shape := ⟨2, 1, 1, 1, 1, [2], 2⟩

/-- A valid state over `sh1` (`x = [0,0,1,2]`, the "identity" scenario). -/
def stC : CGP := mkState sh1 [0, 0, 1, 2]

/-- The state carrying the scenario chromosome `[0,0,1,0]` over `sh2`. -/
def stA : CGP := mkState sh2 [0, 0, 1, 0]

/-- A valid state over `sh3`. -/
def stB : CGP := mkState sh3 [0, 0, 1, 2]

/-! ### The claims -/

/-- C1, counterexample: with `n=2, m=1, r=1, c=1, L=1, arity=[2]` and a single
kernel, the chromosome `[0, 0, 1, 0]` is *not* accepted: the output gene's
lower bound is `n + r·(c − L) = 2`, so `is_valid` is false and `set` throws. -/
theorem c1_counterexample :
    is_valid sh1 [0, 0, 1, 0] = false ∧ set stC [0, 0, 1, 0] = .error () :=
  ⟨rfl, rfl⟩

/-- C1, amended: with `L = 2` (so that `L > c` and the output gene's lower
bound is `0`; with `L = 1` the chromosome is rejected), the chromosome
`[0, 0, 1, 0]` is accepted by `set`, `active_nodes = [0]`,
`active_genes = [3]`, and evaluating with the sum kernel on `[5, 9]` returns
`[5]`. -/
theorem c1_amended :
    set stA [0, 0, 1, 0] = .ok stA ∧
    stA.activeNodes = [0] ∧ stA.activeGenes = [3] ∧
    eval (fun _ args => args.sum) stA ([5, 9] : List ℚ) = some [5] :=
  ⟨rfl, rfl, rfl, rfl⟩

/-- C2, counterexample: `mutate([0, 4])` on the valid chromosome `[0,0,1,2]`
over `sh3` (where `S = 4`, so index `4` is out of range) throws, yet gene `0`
has already been mutated to the drawn value `1`: the chromosome observed after
the failed call differs from the one before it. -/
theorem c2_counterexample :
    (mutate_list stB (fun _ _ => 1) [0, 4]).2 = true ∧
    (mutate_list stB (fun _ _ => 1) [0, 4]).1.x = [1, 0, 1, 2] ∧
    (mutate_list stB (fun _ _ => 1) [0, 4]).1.x ≠ stB.x := by
  refine ⟨rfl, rfl, ?_⟩
  intro h
  cases h

/-- C2, amended: `mutate(idxs)` throws whenever `idxs` contains an index
`k ≥ S`, and when the *first* listed index is out of range the whole state is
left untouched; genes at in-range indices processed before the first offending
one, however, keep their freshly mutated values (the full state is only
guaranteed unchanged in the first-index case). -/
theorem c2_amended (st : CGP) (dv : Nat → Nat → Nat) (idxs : List Nat)
    (h : StateInv st) :
    ((∃ k ∈ idxs, chromoSize st.sh ≤ k) → (mutate_list st dv idxs).2 = true) ∧
    (∀ k rest, idxs = k :: rest → chromoSize st.sh ≤ k →
      mutate_list st dv idxs = (st, true)) := by
  have hlen : st.x.length = chromoSize st.sh := valid_length h.1 h.2.1
  constructor
  · rintro ⟨k, hk, hklen⟩
    have hthrow := @mutateListAux_throws st.sh dv idxs 0 st.x false
      ⟨k, hk, by omega⟩
    unfold mutate_list
    rw [if_pos hthrow]
  · intro k rest hidxs hklen
    subst hidxs
    have haux : mutateListAux st.sh dv (k :: rest) 0 st.x false = (st.x, false, true) := by
      simp only [mutateListAux]
      rw [if_pos (by omega)]
    unfold mutate_list
    rw [haux]
    show (({ st with x := st.x } : CGP), true) = (st, true)
    rw [eta_CGP]

/-- C2, witness for the amended theorem: a concrete call whose first index is
out of range throws and leaves the state untouched. -/
theorem c2_amended_witness :
    mutate_list stB (fun _ _ => 1) [4, 0] = (stB, true) :=
  (c2_amended stB (fun _ _ => 1) [4, 0] (by decide)).2 4 [0] rfl (by decide)

/-- C3: `mutate(k)` throws iff `k ≥ S`; a throwing call leaves the state
unchanged; on a non-degenerate gene (`lb[k] < ub[k]`) the rejection-sampled
value `v` (in bounds, different from the old value) is stored, all other
genes are untouched; on a degenerate gene (`lb[k] = ub[k]`) the call is a
complete no-op. -/
theorem c3_mutate_single (st : CGP) (idx v : Nat) (h : StateInv st) :
    ((mutate st idx v).2 = true ↔ chromoSize st.sh ≤ idx) ∧
    (chromoSize st.sh ≤ idx → (mutate st idx v).1 = st) ∧
    (idx < chromoSize st.sh → lbF st.sh idx < ubF st.sh idx →
      lbF st.sh idx ≤ v → v ≤ ubF st.sh idx → v ≠ st.x.getD idx 0 →
      (mutate st idx v).1.x = st.x.set idx v ∧
      (mutate st idx v).1.x.getD idx 0 = v ∧
      (mutate st idx v).1.x.getD idx 0 ≠ st.x.getD idx 0 ∧
      lbF st.sh idx ≤ (mutate st idx v).1.x.getD idx 0 ∧
      (mutate st idx v).1.x.getD idx 0 ≤ ubF st.sh idx ∧
      ∀ j, j ≠ idx → (mutate st idx v).1.x.getD j 0 = st.x.getD j 0) ∧
    (idx < chromoSize st.sh → lbF st.sh idx = ubF st.sh idx →
      mutate st idx v = (st, false)) := by
  have hlen : st.x.length = chromoSize st.sh := valid_length h.1 h.2.1
  refine ⟨by rw [mutate_threw_iff, hlen], ?_, ?_, ?_⟩
  · intro hge
    exact mutate_throw_state (by omega)
  · intro hlt hneq hlb hub hne
    have hw := @mutate_write st idx v (by omega) hneq
    have hx : (mutate st idx v).1.x = st.x.set idx v := by rw [hw]; rfl
    have hself : (mutate st idx v).1.x.getD idx 0 = v := by
      rw [hx]
      exact getD_set_self st.x v (by omega)
    refine ⟨hx, hself, by rw [hself]; exact hne, by rw [hself]; exact hlb,
      by rw [hself]; exact hub, ?_⟩
    intro j hj
    exact mutate_getD_ne hj
  · intro hlt heq
    exact mutate_noop (by omega) heq

/-- C3, witness: mutating gene `1` of `[0,0,1,0]` over `sh2` with drawn value
`1` stores it and touches nothing else. -/
theorem c3_witness :
    ((mutate stA 1 1).2 = true ↔ chromoSize stA.sh ≤ 1) ∧
    (chromoSize stA.sh ≤ 1 → (mutate stA 1 1).1 = stA) ∧
    (1 < chromoSize stA.sh → lbF stA.sh 1 < ubF stA.sh 1 →
      lbF stA.sh 1 ≤ 1 → 1 ≤ ubF stA.sh 1 → 1 ≠ stA.x.getD 1 0 →
      (mutate stA 1 1).1.x = stA.x.set 1 1 ∧
      (mutate stA 1 1).1.x.getD 1 0 = 1 ∧
      (mutate stA 1 1).1.x.getD 1 0 ≠ stA.x.getD 1 0 ∧
      lbF stA.sh 1 ≤ (mutate stA 1 1).1.x.getD 1 0 ∧
      (mutate stA 1 1).1.x.getD 1 0 ≤ ubF stA.sh 1 ∧
      ∀ j, j ≠ 1 → (mutate stA 1 1).1.x.getD j 0 = stA.x.getD j 0) ∧
    (1 < chromoSize stA.sh → lbF stA.sh 1 = ubF stA.sh 1 →
      mutate stA 1 1 = (stA, false)) :=
  c3_mutate_single stA 1 1 (by decide)

/-- C4: in every state reachable through construction, successful `set` and
the mutation operators, the chromosome respects the per-gene bounds and
`active_nodes` is sorted, duplicate-free and equal to the set of node ids
reachable from the output-gene selections by reverse traversal of connection
genes. -/
theorem c4_invariants (st : CGP) (h : Reach st) :
    (∀ k, k < st.x.length → lbF st.sh k ≤ st.x.getD k 0 ∧ st.x.getD k 0 ≤ ubF st.sh k) ∧
    st.activeNodes.Sorted (· ≤ ·) ∧ st.activeNodes.Nodup ∧
    (∀ a, a ∈ st.activeNodes ↔ Reaches st.sh st.x a) := by
  have hi := reach_stateInv h
  have hAN := hi.2.2.1
  refine ⟨fun k hk => (is_valid_iff.mp hi.2.1).2 k hk, ?_, ?_, ?_⟩
  · rw [hAN]; exact sorted_sortUnique _
  · rw [hAN]; exact nodup_sortUnique _
  · intro a
    rw [hAN]
    exact mem_computeActiveNodes_iff hi.1 hi.2.1 a

/-- All lower bounds of `sh2` are zero, so the constant-zero draw oracle
respects the distribution contract. -/
theorem lbF_sh2_eq_zero (i : Nat) : lbF sh2 i = 0 := by
  show (lbList sh2).getD i 0 = 0
  rw [show lbList sh2 = [0, 0, 0, 0] from rfl]
  match i with
  | 0 => rfl
  | 1 => rfl
  | 2 => rfl
  | 3 => rfl
  | (nn + 4) => rfl

/-- The freshly constructed state over `sh2` with the all-zero draw oracle. -/
def st0 : CGP := mkState sh2 (initX sh2 (fun _ => 0))

/-- `st0` is reachable: it is the result of the constructor. -/
theorem reach_st0 : Reach st0 :=
  Reach.init sh2 (fun _ => 0) (by decide)
    (fun i => ⟨le_of_eq (lbF_sh2_eq_zero i), Nat.zero_le _⟩) st0 rfl

/-- `stA` is reachable: construct over `sh2`, then `set [0,0,1,0]`. -/
theorem reach_stA : Reach stA :=
  Reach.set_ok st0 [0, 0, 1, 0] reach_st0 stA rfl

/-- C4, witness: the invariants hold in the concrete constructed state. -/
theorem c4_witness :
    (∀ k, k < st0.x.length → lbF st0.sh k ≤ st0.x.getD k 0 ∧ st0.x.getD k 0 ≤ ubF st0.sh k) ∧
    st0.activeNodes.Sorted (· ≤ ·) ∧ st0.activeNodes.Nodup ∧
    (∀ a, a ∈ st0.activeNodes ↔ Reaches st0.sh st0.x a) :=
  c4_invariants st0 reach_st0

/-- C5: evaluation is a deterministic function of the chromosome and the point
(it is a pure Lean function), and it does not depend on inactive genes: two
valid chromosomes of the same shape agreeing on every index in `active_genes`
produce equal outputs on every input point, for every kernel semantics. -/
theorem c5_inactive_independence (sh : Shape) (x y : List Nat)
    (hx : is_valid sh x = true) (hy : is_valid sh y = true)
    (hag : ∀ k ∈ computeActiveGenes sh x, y.getD k 0 = x.getD k 0)
    (T : Type) [Inhabited T] (K : Nat → List T → T) (point : List T) :
    eval K (mkState sh y) point = eval K (mkState sh x) point := by
  have hlen : y.length = x.length := by
    rw [(is_valid_iff.mp hy).1, (is_valid_iff.mp hx).1]
  exact eval_agree hlen hag K point

/-- C5, witness: `[0,1,1,0]` differs from `[0,0,1,0]` only on the inactive
gene `1`, and both evaluate to `[5]` on `[5, 9]`. -/
theorem c5_witness :
    eval (fun _ args => args.sum) (mkState sh2 [0, 1, 1, 0]) ([5, 9] : List Int)
      = eval (fun _ args => args.sum) (mkState sh2 [0, 0, 1, 0]) ([5, 9] : List Int) :=
  c5_inactive_independence sh2 [0, 0, 1, 0] [0, 1, 1, 0] (by decide) (by decide)
    (by decide) Int (fun _ args => args.sum) [5, 9]

/-- C6: for every active non-input node the whole contiguous gene range
`[gene_idx[id], gene_idx[id] + arity]` is contained in `active_genes`, and the
final `m` entries of `active_genes` are exactly `S−m, …, S−1`. -/
theorem c6_active_genes (sh : Shape) (x : List Nat) (hs : sane sh)
    (hv : is_valid sh x = true) :
    (∀ id ∈ computeActiveNodes sh x, sh.n ≤ id →
      ∀ j, j ≤ nodeArity sh id → geneIdx sh id + j ∈ computeActiveGenes sh x) ∧
    (computeActiveGenes sh x).drop ((computeActiveGenes sh x).length - sh.m)
      = (List.range sh.m).map (fun i => chromoSize sh - sh.m + i) := by
  constructor
  · intro id hid hn j hj
    exact mem_activeGenes_block hid hn hj
  · rw [activeGenes_drop, valid_length hs hv]

/-- C6, witness. -/
theorem c6_witness :
    (∀ id ∈ computeActiveNodes sh2 [0, 0, 1, 0], sh2.n ≤ id →
      ∀ j, j ≤ nodeArity sh2 id → geneIdx sh2 id + j ∈ computeActiveGenes sh2 [0, 0, 1, 0]) ∧
    (computeActiveGenes sh2 [0, 0, 1, 0]).drop
        ((computeActiveGenes sh2 [0, 0, 1, 0]).length - sh2.m)
      = (List.range sh2.m).map (fun i => chromoSize sh2 - sh2.m + i) :=
  c6_active_genes sh2 [0, 0, 1, 0] (by decide) (by decide)

/-- C7: `set(get())` is a no-op on every reachable state: the validity check
passes and the state is observably unchanged. -/
theorem c7_set_get_noop (st : CGP) (h : Reach st) : set st (get st) = .ok st := by
  have hi := reach_stateInv h
  unfold set get
  rw [if_pos hi.2.1]
  show Except.ok (mkState st.sh st.x) = Except.ok st
  unfold mkState
  rw [← hi.2.2.1, ← hi.2.2.2]

/-- C7, witness. -/
theorem c7_witness : set stA (get stA) = .ok stA :=
  c7_set_get_noop stA reach_stA

/-- C8: for an in-range node id and kernel id, `set_f_gene` succeeds, writes
`f_id` into the single position `gene_idx[node_id]`, and preserves
`active_nodes`, `active_genes` and every other gene. -/
theorem c8_set_f_gene_frame (st : CGP) (node_id f_id : Nat) (h : StateInv st)
    (hn : st.sh.n ≤ node_id) (hn2 : node_id ≤ st.sh.n + st.sh.c * st.sh.r - 1)
    (hf : f_id ≤ st.sh.nf - 1) :
    ∃ st2, set_f_gene st node_id f_id = .ok st2 ∧ st2.sh = st.sh ∧
      st2.activeNodes = st.activeNodes ∧ st2.activeGenes = st.activeGenes ∧
      st2.x = st.x.set (geneIdx st.sh node_id) f_id ∧
      st2.x.getD (geneIdx st.sh node_id) 0 = f_id ∧
      ∀ j, j ≠ geneIdx st.sh node_id → st2.x.getD j 0 = st.x.getD j 0 := by
  have hs := h.1
  have hr := hs.2.2.2.1
  have hc := hs.2.2.1
  have hcr : 0 < st.sh.c * st.sh.r := Nat.mul_pos hc hr
  have hlt : node_id < st.sh.n + st.sh.r * st.sh.c := by
    have hcomm : st.sh.c * st.sh.r = st.sh.r * st.sh.c := Nat.mul_comm _ _
    omega
  have hgi : geneIdx st.sh node_id < st.x.length := by
    have h0 := geneIdx_add_lt (length_nodeUb st.sh) hr hn hlt (Nat.zero_le (arityAt st.sh (nodeCol st.sh node_id)))
    have hclen : (colsOf st.sh (nodeUb st.sh) st.sh.c).length
        = st.sh.r * st.sh.c + st.sh.r * st.sh.arity.sum := by
      rw [colsOf_length (length_nodeUb st.sh), sumArity_total hs.2.2.2.2.2.1]
    have hxlen := valid_length hs h.2.1
    unfold chromoSize at hxlen
    omega
  refine ⟨{ st with x := st.x.set (geneIdx st.sh node_id) f_id }, ?_, rfl, rfl, rfl, rfl,
    getD_set_self st.x f_id hgi, fun j hj => getD_set_ne st.x f_id (Ne.symm hj)⟩
  unfold set_f_gene
  rw [if_neg (by omega), if_neg (not_or.mpr ⟨by omega, by omega⟩)]

/-- C8, witness: setting the function gene of node `2` over `sh3` (two
kernels) to kernel `1`. -/
theorem c8_witness :
    ∃ st2, set_f_gene stB 2 1 = .ok st2 ∧ st2.sh = stB.sh ∧
      st2.activeNodes = stB.activeNodes ∧ st2.activeGenes = stB.activeGenes ∧
      st2.x = stB.x.set (geneIdx stB.sh 2) 1 ∧
      st2.x.getD (geneIdx stB.sh 2) 0 = 1 ∧
      ∀ j, j ≠ geneIdx stB.sh 2 → st2.x.getD j 0 = stB.x.getD j 0 :=
  c8_set_f_gene_frame stB 2 1 (by decide) (by decide) (by decide) (by decide)

/-- C9: for every bound-valid chromosome the back-wave loop of
`update_data_structures` terminates: each wave of in-range nodes strictly
decreases the wave measure (driven by the maximum reachable column), and
`c + 1` iterations already reach the fixed point — more fuel changes
nothing. -/
theorem c9_backwave_terminates (sh : Shape) (x : List Nat) (hs : sane sh)
    (hv : is_valid sh x = true) :
    (∀ current, current ≠ [] → InRange sh current →
      waveMeasure sh (waveNext sh x current) < waveMeasure sh current) ∧
    (∀ fuel, sh.c + 1 ≤ fuel →
      activeLoop sh x fuel (initCurrent sh x) []
        = activeLoop sh x (sh.c + 1) (initCurrent sh x) []) := by
  constructor
  · intro current hne hinr
    exact waveNext_measure_lt hs hv hinr hne
  · intro fuel hf
    exact (activeLoop_fuel_stable hs hv (sh.c + 1) fuel _ [] (initCurrent_measure hs hv)
      hf (initCurrent_inRange hs hv)).symm

/-- C9, witness: a concrete wave decrease and fuel-independence instance. -/
theorem c9_witness :
    waveMeasure sh2 (waveNext sh2 [0, 0, 1, 0] [2]) < waveMeasure sh2 [2] ∧
    activeLoop sh2 [0, 0, 1, 0] 7 (initCurrent sh2 [0, 0, 1, 0]) []
      = activeLoop sh2 [0, 0, 1, 0] 2 (initCurrent sh2 [0, 0, 1, 0]) [] :=
  ⟨(c9_backwave_terminates sh2 [0, 0, 1, 0] (by decide) (by decide)).1 [2]
      (by decide) (by decide),
    (c9_backwave_terminates sh2 [0, 0, 1, 0] (by decide) (by decide)).2 7 (by decide)⟩

/-- C10: for `N ≥ 1`, `mutate_ogene(N)` changes at most one chromosome
position, and that position is one of the `m` output genes `S−m, …, S−1`;
when `m > 1` the target slot is drawn `N` times but only the last draw is
mutated. -/
theorem c10_mutate_ogene (st : CGP) (d : Nat → Nat) (v N : Nat) (h : StateInv st)
    (hN : 1 ≤ N)
    (hd : ∀ i, st.activeGenes.length - st.sh.m ≤ d i ∧ d i < st.activeGenes.length) :
    (∃ t, chromoSize st.sh - st.sh.m ≤ t ∧ t < chromoSize st.sh ∧
      (mutate_ogene st d v N).2 = false ∧
      ∀ j, j ≠ t → (mutate_ogene st d v N).1.x.getD j 0 = st.x.getD j 0) ∧
    (1 < st.sh.m →
      mutate_ogene st d v N = mutate st (st.activeGenes.getD (d (N - 1)) 0) v) := by
  have hAG := h.2.2.2
  have hlen := valid_length h.1 h.2.1
  have hm := h.1.2.1
  set p := (if 1 < st.sh.m then forLast d 0 N else st.activeGenes.length - 1) with hp
  have hAGlen : 1 ≤ st.activeGenes.length := by
    rw [hAG, activeGenes_length]
    omega
  have hpbound : st.activeGenes.length - st.sh.m ≤ p ∧ p < st.activeGenes.length := by
    rw [hp]
    split
    · cases N with
      | zero => omega
      | succ k => exact hd k
    · omega
  have hpb2 : (computeActiveGenes st.sh st.x).length - st.sh.m ≤ p ∧
      p < (computeActiveGenes st.sh st.x).length := by
    rw [← hAG]
    exact hpbound
  obtain ⟨q, hq, hgetD⟩ := activeGenes_getD_out hpb2.1 hpb2.2
  have ht : st.activeGenes.getD p 0 = st.x.length - st.sh.m + q := by
    rw [hAG]
    exact hgetD
  have hSm : st.sh.m ≤ chromoSize st.sh := by unfold chromoSize; omega
  have hogene : mutate_ogene st d v N = mutate st (st.activeGenes.getD p 0) v := by
    unfold mutate_ogene
    rw [← hp]
  refine ⟨⟨st.activeGenes.getD p 0, by omega, by omega, ?_, ?_⟩, ?_⟩
  · rw [hogene]
    exact mutate_not_threw (by omega)
  · intro j hj
    rw [hogene]
    exact mutate_getD_ne hj
  · intro hm2
    have hpd : p = d (N - 1) := by
      rw [hp, if_pos hm2]
      cases N with
      | zero => omega
      | succ k => rfl
    rw [hogene, hpd]

/-- C10, witness: over `sh2` (`m = 1`) a single `mutate_ogene` call touches
only the output gene. -/
theorem c10_witness :
    (∃ t, chromoSize stA.sh - stA.sh.m ≤ t ∧ t < chromoSize stA.sh ∧
      (mutate_ogene stA (fun _ => 0) 2 1).2 = false ∧
      ∀ j, j ≠ t → (mutate_ogene stA (fun _ => 0) 2 1).1.x.getD j 0 = stA.x.getD j 0) ∧
    (1 < stA.sh.m →
      mutate_ogene stA (fun _ => 0) 2 1
        = mutate stA (stA.activeGenes.getD ((fun _ => 0) (1 - 1)) 0) 2) :=
  c10_mutate_ogene stA (fun _ => 0) 2 1 (by decide) (by decide)
    (fun i =>
      (show stA.activeGenes.length - stA.sh.m ≤ 0 ∧ 0 < stA.activeGenes.length by decide))

end Dcgp
